/-
Verification of the xtu-navigation-system shortest-path core
(src/js/dijkstra.js) against its natural-language specification.

The JavaScript source is shallowly embedded in Lean:
  * JS numbers are modelled as exact rationals (`ℚ`); the distance value
    `Infinity` that `dijkstra` uses as an initial label is modelled by `⊤`
    in `WithTop ℚ`.
  * JS objects used as finite maps (`dist`, `prev`, `flow`) are modelled by
    total functions resp. association lists, together with an explicit
    record of which keys are present where the present/absent distinction
    is observable (`prev` lookups of a missing key yield `undefined`, which
    is distinct from `null`).
  * The `forEach`/`filter`/`find` iteration of the source is modelled by
    folds over lists in the same order.
  * The reconstruction `while (current !== null)` loop of the source has no
    a-priori bound, and for some inputs it never exits (see
    `backtrack_undef_none` below); it is therefore modelled with explicit
    fuel, `none` meaning that the loop is still running when the fuel runs
    out.  `dijkstra` instantiates the fuel with `g.nodes.length + 2`, which
    is proved sufficient whenever the loop exits at all.
-/
import Mathlib

namespace XtuNav

/-- A graph node: a numeric id plus descriptive attributes that are opaque
to the algorithm (represented by a name string). -/
structure Node where
  id : Int
  name : String
deriving DecidableEq, Repr

/-- A raw directed edge, as supplied by the external collaborator: endpoints,
base distance and a per-time-period flow-coefficient mapping.  The whole
`flow` object may be absent (`none`), which matters for error behaviour:
`edge.flow[timePeriod]` throws a TypeError in that case. -/
structure Edge where
  from_ : Int
  to_ : Int
  distance : ℚ
  flow : Option (List (String × ℚ))
deriving DecidableEq, Repr

/-- An edge after weight initialization: it additionally carries `weight`. -/
structure WEdge where
  from_ : Int
  to_ : Int
  distance : ℚ
  weight : ℚ
deriving DecidableEq, Repr

/-- A raw graph. -/
structure Graph where
  nodes : List Node
  edges : List Edge
deriving DecidableEq, Repr

/-- A weighted graph (the input of `dijkstra`). -/
structure WGraph where
  nodes : List Node
  edges : List WEdge
deriving DecidableEq, Repr

/-! ### Weight initialization (`initEdgeWeights`, src/js/dijkstra.js lines 7-14) -/

/-- The flow coefficient used by `initEdgeWeights`:
`const flowRate = edge.flow[timePeriod] || 0.2`.
JS `||` falls back to the default not only when the property is absent
(`undefined`) but also when the stored coefficient is `0` (falsy). -/
def flowRate (fl : List (String × ℚ)) (timePeriod : String) : ℚ :=
  match fl.lookup timePeriod with
  | some c => if c = 0 then 1/5 else c
  | none => 1/5

/-- Weighting a single edge: `edge.weight = edge.distance * (1 + flowRate)`.
Returns `none` when `edge.flow` is absent, modelling the TypeError thrown
by `edge.flow[timePeriod]`. -/
def weightEdge (timePeriod : String) (e : Edge) : Option WEdge :=
  match e.flow with
  | none => none
  | some fl =>
      some { from_ := e.from_, to_ := e.to_, distance := e.distance,
             weight := e.distance * (1 + flowRate fl timePeriod) }

/-- The `updatedGraph.edges.forEach` pass; a TypeError anywhere aborts the
whole call, so the result is `none` as soon as one edge lacks `flow`. -/
def weightEdges (timePeriod : String) : List Edge → Option (List WEdge)
  | [] => some []
  | e :: es =>
      match weightEdge timePeriod e, weightEdges timePeriod es with
      | some w, some ws => some (w :: ws)
      | _, _ => none

/-- `JSON.parse(JSON.stringify(graph))`: a structural deep copy.  On plain
data (numbers, strings, arrays, objects) the JSON round trip rebuilds the
structure field by field. -/
def copyNode (n : Node) : Node := { id := n.id, name := n.name }

def copyEdge (e : Edge) : Edge :=
  { from_ := e.from_, to_ := e.to_, distance := e.distance,
    flow := e.flow.map (fun fl => fl.map (fun p => (p.1, p.2))) }

def deepCopyGraph (g : Graph) : Graph :=
  { nodes := g.nodes.map copyNode, edges := g.edges.map copyEdge }

/-- `initEdgeWeights(graph, timePeriod)`: deep-copy the graph, then give
every edge of the copy its combined weight.  `none` models the TypeError
raised when some edge has no `flow` mapping. -/
def initEdgeWeights (g : Graph) (timePeriod : String) : Option WGraph :=
  let c := deepCopyGraph g
  (weightEdges timePeriod c.edges).map (fun wes => { nodes := c.nodes, edges := wes })

/-! ### Dijkstra (src/js/dijkstra.js lines 23-96) -/

/-- Distance labels: node id to current label, `⊤` playing `Infinity`. -/
abbrev DistF := Int → WithTop ℚ

/-- Predecessor pointers: `none` plays JS `null`.  The keys of the JS `prev`
object are exactly the node ids; a lookup at any other id yields
`undefined`, which `backtrack` below models via an explicit membership
test. -/
abbrev PrevF := Int → Option Int

/-- `new Set(graph.nodes.map(node => node.id))`, iterated in insertion
order: the list of node ids with later duplicates dropped. -/
def insertOrderDedup (l : List Int) : List Int :=
  l.foldl (fun acc x => if x ∈ acc then acc else acc ++ [x]) []

/-- The `graph.nodes.forEach` initialization of `dist`:
`dist[node.id] = node.id === start ? 0 : Infinity`. -/
def initDist (nodes : List Node) (start : Int) : DistF :=
  nodes.foldl
    (fun d n => fun x => if x = n.id then (if n.id = start then 0 else ⊤) else d x)
    (fun _ => ⊤)

/-- The `graph.nodes.forEach` initialization of `prev`: every key gets
`null`. -/
def initPrev (nodes : List Node) : PrevF :=
  nodes.foldl (fun p n => fun x => if x = n.id then none else p x) (fun _ => none)

/-- The body of the minimum-selection `unvisited.forEach` (lines 40-44):
`minNodeId` is `none` (JS `null`) or the best candidate so far, replaced
whenever the current id has a strictly smaller label. -/
def selStep (dist : DistF) (acc : Option Int) (id : Int) : Option Int :=
  match acc with
  | none => some id
  | some m => if dist id < dist m then some id else acc

/-- The minimum-selection loop over the unvisited set (lines 39-44). -/
def selectMin (dist : DistF) (unvisited : List Int) : Option Int :=
  unvisited.foldl (selStep dist) none

/-- One relaxation (lines 54-61), applied to an edge leaving the selected
node: skip neighbours no longer unvisited, otherwise update `dist`/`prev`
when the new label is strictly smaller. -/
def relaxStep (m : Int) (unvisited : List Int) (dp : DistF × PrevF) (e : WEdge) :
    DistF × PrevF :=
  if e.to_ ∈ unvisited then
    if dp.1 m + (e.weight : WithTop ℚ) < dp.1 e.to_ then
      (fun x => if x = e.to_ then dp.1 m + (e.weight : WithTop ℚ) else dp.1 x,
       fun x => if x = e.to_ then some m else dp.2 x)
    else dp
  else dp

/-- `graph.edges.filter(edge => edge.from === minNodeId).forEach(...)`. -/
def relaxAll (edges : List WEdge) (m : Int) (unvisited : List Int)
    (dp : DistF × PrevF) : DistF × PrevF :=
  (edges.filter (fun e => e.from_ == m)).foldl (relaxStep m unvisited) dp

/-- The main `while (unvisited.size > 0)` loop (lines 37-63).  Each
iteration removes the selected node, so the iteration count is bounded by
the initial size of the unvisited set; the `Nat` argument is that loop
variant, made explicit (it is instantiated with `unvisited.length`, which
is exact: when it runs out the set is already empty). -/
def searchLoop (edges : List WEdge) (endId : Int) :
    Nat → List Int → DistF × PrevF → DistF × PrevF
  | 0, _, dp => dp
  | Nat.succ f, unvisited, dp =>
      if unvisited.isEmpty then dp
      else
        match selectMin dp.1 unvisited with
        | none => dp
        | some m =>
            if dp.1 m = ⊤ then dp
            else
              let u' := unvisited.erase m
              if m = endId then dp
              else searchLoop edges endId f u' (relaxAll edges m u' dp)

/-- A value of the `current` variable of the reconstruction loop: a node
id, JS `null`, or JS `undefined` (the result of reading a key that was
never set). -/
inductive JsCur where
  | null : JsCur
  | undef : JsCur
  | num : Int → JsCur
deriving DecidableEq, Repr

/-- The reconstruction loop (lines 66-72): `while (current !== null)`
unshift `current` and move to `prev[current]`.  Reading `prev` at a key
outside `ids` yields `undefined`; since `undefined !== null`, the loop then
runs forever (each further read again yields `undefined`).  The loop is
modelled with fuel: `none` means the loop is still running when the fuel is
exhausted.  Entries unshifted while `current` is `undefined` belong only to
runs that never exit, so the accumulator keeps ids only. -/
def backtrack (ids : List Int) (prev : PrevF) :
    Nat → JsCur → List Int → Option (List Int)
  | 0, _, _ => none
  | Nat.succ f, cur, acc =>
      match cur with
      | JsCur.null => some acc
      | JsCur.undef => backtrack ids prev f JsCur.undef acc
      | JsCur.num i =>
          backtrack ids prev f
            (if i ∈ ids then
               match prev i with
               | none => JsCur.null
               | some j => JsCur.num j
             else JsCur.undef)
            (i :: acc)

/-- The total-distance pass (lines 75-80): for each consecutive pair, add
the distance of the first matching edge, or `0` when there is none. -/
def pathDistance (edges : List WEdge) : List Int → ℚ
  | a :: b :: rest =>
      (match edges.find? (fun e => e.from_ == a && e.to_ == b) with
       | some e => e.distance
       | none => 0) + pathDistance edges (b :: rest)
  | _ => 0

/-- `new Map(graph.nodes.map(node => [node.id, node]))` followed by
`nodeMap.get(id)`: with duplicate ids the last insertion wins. -/
def nodeMapGet (nodes : List Node) (i : Int) : Option Node :=
  nodes.reverse.find? (fun n => n.id == i)

/-- The result object of `dijkstra`. -/
structure PathResult where
  path : List Int
  totalWeight : WithTop ℚ
  totalDistance : ℚ
  pathNodes : List (Option Node)
deriving DecidableEq, Repr

/-- The canonical "no path" result (line 84). -/
def noPathResult : PathResult :=
  { path := [], totalWeight := ⊤, totalDistance := 0, pathNodes := [] }

/-- Lines 82-95: the invalid-path check `if (path[0] !== start)` and the
construction of the returned object. -/
def dijkstraFinish (start : Int) (g : WGraph) (dist : DistF) (endId : Int)
    (path : List Int) : PathResult :=
  if path.head? = some start then
    { path := path, totalWeight := dist endId,
      totalDistance := pathDistance g.edges path,
      pathNodes := path.map (nodeMapGet g.nodes) }
  else noPathResult

/-- `dijkstra(start, end, graph)` with explicit fuel for the reconstruction
loop; `none` means that loop is still running when the fuel runs out. -/
def dijkstraFuel (fuel : Nat) (start endId : Int) (g : WGraph) : Option PathResult :=
  let ids := insertOrderDedup (g.nodes.map Node.id)
  let dp := searchLoop g.edges endId ids.length ids
    (initDist g.nodes start, initPrev g.nodes)
  (backtrack ids dp.2 fuel (JsCur.num endId) []).map
    (dijkstraFinish start g dp.1 endId)

/-- `dijkstra` with the reconstruction fuel `g.nodes.length + 2`, proved
below (`backtrack` chain bounds) to suffice whenever the loop exits at
all. -/
def dijkstra (start endId : Int) (g : WGraph) : Option PathResult :=
  dijkstraFuel (g.nodes.length + 2) start endId g

/-! ### Edge paths and their weights -/

/-- A chain of edges of `edges` leading from `a` to `b`. -/
inductive IsEdgePath (edges : List WEdge) : Int → Int → List WEdge → Prop where
  | nil (a : Int) : IsEdgePath edges a a []
  | cons {b : Int} (e : WEdge) {p : List WEdge} (he : e ∈ edges)
      (rest : IsEdgePath edges e.to_ b p) : IsEdgePath edges e.from_ b (e :: p)

/-- Total weight of an edge path. -/
def epWeight (p : List WEdge) : ℚ := (p.map WEdge.weight).sum

/-- The node-id sequence traced by an edge path starting at `a`. -/
def epNodes (a : Int) (p : List WEdge) : List Int := a :: p.map WEdge.to_

/-- `b` can be reached from `a` along edges of `edges`. -/
def Reachable (edges : List WEdge) (a b : Int) : Prop :=
  ∃ p, IsEdgePath edges a b p

/-- `x` has been removed from the unvisited set (and is an actual node id). -/
def VisitedIn (ids unvisited : List Int) (x : Int) : Prop :=
  x ∈ ids ∧ x ∉ unvisited

/-- The node-id sequence obtained by walking `prev` pointers backwards from
a node until hitting `null` at `start`; `p` lists the ids front to back,
exactly as the unshift loop produces them. -/
inductive PrevChain (prev : PrevF) (start : Int) : Int → List Int → Prop where
  | base : prev start = none → PrevChain prev start start [start]
  | step {v u : Int} {p : List Int} : prev v = some u → PrevChain prev start u p →
      PrevChain prev start v (p ++ [v])

/-- Invariant of the search loop that needs no assumption on the graph:
enough to settle unreachable-target behaviour and the shape of `prev`. -/
structure BasicInv (edges : List WEdge) (start : Int) (ids : List Int)
    (unvisited : List Int) (dist : DistF) (prev : PrevF) : Prop where
  sub : ∀ x ∈ unvisited, x ∈ ids
  nodup : unvisited.Nodup
  out : ∀ x, x ∉ ids → dist x = ⊤ ∧ prev x = none
  reach : ∀ v, dist v ≠ ⊤ → ∃ q : ℚ, dist v = (q : WithTop ℚ) ∧
    ∃ p, IsEdgePath edges start v p ∧ epWeight p = q
  prevSpec : ∀ v u, prev v = some u → dist v ≠ ⊤ ∧ dist u ≠ ⊤ ∧
    VisitedIn ids unvisited u ∧
    ∃ e ∈ edges, e.from_ = u ∧ e.to_ = v ∧ dist v = dist u + (e.weight : WithTop ℚ)
  finPrev : ∀ v, dist v ≠ ⊤ → v = start ∨ ∃ u, prev v = some u
  chain : ∃ vis : List Int, vis.Nodup ∧ (∀ x, x ∈ vis ↔ VisitedIn ids unvisited x) ∧
    ∀ v u, prev v = some u → u ∈ vis ∧ (v ∈ vis → vis.indexOf u < vis.indexOf v)

/-- Full Dijkstra invariant, sound for graphs with non-negative weights
whose edges join existing nodes, when `start` is an existing node. -/
structure DijInv (edges : List WEdge) (start : Int) (ids : List Int)
    (unvisited : List Int) (dist : DistF) (prev : PrevF) : Prop where
  basic : BasicInv edges start ids unvisited dist prev
  startZero : dist start = 0
  startPrev : prev start = none
  nonneg : ∀ v, 0 ≤ dist v
  visFin : ∀ u, VisitedIn ids unvisited u → dist u ≠ ⊤
  edgeBound : ∀ u, VisitedIn ids unvisited u → ∀ e ∈ edges, e.from_ = u →
    e.to_ ∈ ids → dist e.to_ ≤ dist u + (e.weight : WithTop ℚ)
  visLe : ∀ u, VisitedIn ids unvisited u → ∀ v ∈ unvisited, dist u ≤ dist v
  visLB : ∀ u, VisitedIn ids unvisited u → ∀ p, IsEdgePath edges start u p →
    dist u ≤ ((epWeight p : ℚ) : WithTop ℚ)

/-- How one pass of relaxation from `m` relates the tables before and
after: each id is either untouched, or was an unvisited neighbour of `m`
whose label strictly dropped to `dist m + weight` with its predecessor set
to `m`. -/
structure RelaxRel (edges : List WEdge) (m : Int) (unvisited : List Int)
    (dp dp' : DistF × PrevF) : Prop where
  cases : ∀ x, (dp'.1 x = dp.1 x ∧ dp'.2 x = dp.2 x) ∨
    (x ∈ unvisited ∧ dp'.2 x = some m ∧ dp'.1 x < dp.1 x ∧
      ∃ e ∈ edges, e.from_ = m ∧ e.to_ = x ∧ dp'.1 x = dp.1 m + (e.weight : WithTop ℚ))

/-! ### Concrete inputs used by witnesses and counterexamples -/

/-- Two nodes joined by one edge of weight and distance 3. -/
def exG1 : WGraph :=
  { nodes := [⟨1, "A"⟩, ⟨2, "B"⟩], edges := [⟨1, 2, 3, 3⟩] }

/-- A single node and no edges. -/
def exG3 : WGraph :=
  { nodes := [⟨1, "A"⟩], edges := [] }

/-- Two nodes with only a back edge, so node 2 is unreachable from node 1. -/
def exG4 : WGraph :=
  { nodes := [⟨1, "A"⟩, ⟨2, "B"⟩], edges := [⟨2, 1, 1, 1⟩] }

/-- Two nodes joined by one edge of weight and distance 1. -/
def exG5 : WGraph :=
  { nodes := [⟨1, "A"⟩, ⟨2, "B"⟩], edges := [⟨1, 2, 1, 1⟩] }

/-- One edge of distance 1 whose morning flow coefficient is stored as 0. -/
def exG2 : Graph :=
  { nodes := [⟨1, "A"⟩, ⟨2, "B"⟩], edges := [⟨1, 2, 1, some [("morning", 0)]⟩] }

/-- The weighted graph the code produces from `exG2` for "morning": the
stored coefficient 0 is falsy, so the default 0.2 applies and the weight is
`1 * (1 + 1/5) = 1.2`. -/
def exWG2 : WGraph :=
  { nodes := [⟨1, "A"⟩, ⟨2, "B"⟩], edges := [⟨1, 2, 1, 1 * (1 + 1/5)⟩] }

/-- An edge whose whole flow mapping is absent. -/
def exG6 : Graph :=
  { nodes := [⟨1, "A"⟩], edges := [⟨1, 1, 1, none⟩] }

/-- An edge with a flow mapping present (for a period other than the query). -/
def exG6b : Graph :=
  { nodes := [⟨1, "A"⟩], edges := [⟨1, 1, 1, some [("noon", 1/2)]⟩] }

/-- Like `exG2` but with the morning coefficient raised from 0 to 1/10. -/
def exG8b : Graph :=
  { nodes := [⟨1, "A"⟩, ⟨2, "B"⟩],
    edges := [⟨1, 2, 1, some [("morning", 1/10)]⟩] }

/-- Like `exG8b` but with the morning coefficient raised from 1/10 to 1/2. -/
def exG8c : Graph :=
  { nodes := [⟨1, "A"⟩, ⟨2, "B"⟩],
    edges := [⟨1, 2, 1, some [("morning", 1/2)]⟩] }

/-- The weighted graph the code produces from `exG8b` for "morning": the
stored coefficient 1/10 is truthy, so the weight is `1 * (1 + 1/10)`. -/
def exWG8b : WGraph :=
  { nodes := [⟨1, "A"⟩, ⟨2, "B"⟩], edges := [⟨1, 2, 1, 1 * (1 + 1/10)⟩] }

/-! ### Lemmas: the fold characterizations -/

theorem insertFold_mem (l : List Int) : ∀ (acc : List Int) (x : Int),
    (x ∈ l.foldl (fun acc x => if x ∈ acc then acc else acc ++ [x]) acc) ↔
      x ∈ acc ∨ x ∈ l := by
  induction l with
  | nil => simp
  | cons a l ih =>
      intro acc x
      simp only [List.foldl_cons]
      by_cases h : a ∈ acc
      · simp only [if_pos h, ih, List.mem_cons]
        constructor
        · rintro (hx | hx)
          · exact Or.inl hx
          · exact Or.inr (Or.inr hx)
        · rintro (hx | rfl | hx)
          · exact Or.inl hx
          · exact Or.inl h
          · exact Or.inr hx
      · simp only [if_neg h, ih, List.mem_append, List.mem_singleton, List.mem_cons]
        tauto

theorem insertFold_nodup (l : List Int) : ∀ acc : List Int, acc.Nodup →
    (l.foldl (fun acc x => if x ∈ acc then acc else acc ++ [x]) acc).Nodup := by
  induction l with
  | nil => intro acc h; simpa using h
  | cons a l ih =>
      intro acc h
      simp only [List.foldl_cons]
      by_cases ha : a ∈ acc
      · exact ih _ (by simpa [ha] using h)
      · refine ih _ ?_
        rw [if_neg ha, List.nodup_append]
        exact ⟨h, List.nodup_singleton a, by simpa using ha⟩

theorem insertFold_sublist (l : List Int) : ∀ acc : List Int,
    ∃ extra, l.foldl (fun acc x => if x ∈ acc then acc else acc ++ [x]) acc =
      acc ++ extra ∧ extra.Sublist l := by
  induction l with
  | nil => intro acc; exact ⟨[], by simp, List.Sublist.refl _⟩
  | cons a l ih =>
      intro acc
      simp only [List.foldl_cons]
      by_cases ha : a ∈ acc
      · obtain ⟨extra, he, hs⟩ := ih acc
        exact ⟨extra, by simpa [ha] using he, hs.cons a⟩
      · obtain ⟨extra, he, hs⟩ := ih (acc ++ [a])
        refine ⟨a :: extra, ?_, hs.cons₂ a⟩
        rw [if_neg ha, he, List.append_assoc]
        rfl

theorem insertOrderDedup_mem (l : List Int) (x : Int) :
    x ∈ insertOrderDedup l ↔ x ∈ l := by
  unfold insertOrderDedup
  rw [insertFold_mem]
  simp

theorem insertOrderDedup_nodup (l : List Int) : (insertOrderDedup l).Nodup :=
  insertFold_nodup l [] List.nodup_nil

theorem insertOrderDedup_sublist (l : List Int) :
    (insertOrderDedup l).Sublist l := by
  obtain ⟨extra, he, hs⟩ := insertFold_sublist l []
  unfold insertOrderDedup
  rw [he]
  simpa using hs

theorem initDist_eq (nodes : List Node) (start x : Int) :
    initDist nodes start x =
      if x ∈ nodes.map Node.id then (if x = start then 0 else ⊤) else ⊤ := by
  suffices h : ∀ d₀ : DistF,
      nodes.foldl
        (fun d n => fun y => if y = n.id then (if n.id = start then 0 else ⊤) else d y)
        d₀ x
      = if x ∈ nodes.map Node.id then (if x = start then 0 else ⊤) else d₀ x by
    unfold initDist
    rw [h]
  induction nodes with
  | nil => intro d₀; simp
  | cons n ns ih =>
      intro d₀
      simp only [List.foldl_cons, List.map_cons, List.mem_cons]
      rw [ih]
      by_cases hx : x ∈ ns.map Node.id
      · simp [hx]
      · by_cases hxn : x = n.id
        · subst hxn
          simp [hx]

        · simp [hx, hxn, Ne.symm]

theorem initPrev_eq (nodes : List Node) (x : Int) : initPrev nodes x = none := by
  suffices h : ∀ p₀ : PrevF, p₀ x = none →
      nodes.foldl (fun p n => fun y => if y = n.id then none else p y) p₀ x = none by
    exact h _ rfl
  induction nodes with
  | nil => intro p₀ h; simpa using h
  | cons n ns ih =>
      intro p₀ h
      simp only [List.foldl_cons]
      refine ih _ ?_
      by_cases hxn : x = n.id <;> simp [hxn, h]

/-! ### Lemmas: minimum selection -/

theorem selectMin_go (dist : DistF) : ∀ (l : List Int) (c : Int),
    ∃ m, l.foldl (selStep dist) (some c) = some m ∧
      (m = c ∨ m ∈ l) ∧ dist m ≤ dist c ∧ ∀ y ∈ l, dist m ≤ dist y := by
  intro l
  induction l with
  | nil => intro c; exact ⟨c, rfl, Or.inl rfl, le_refl _, by simp⟩
  | cons a l ih =>
      intro c
      simp only [List.foldl_cons]
      by_cases h : dist a < dist c
      · obtain ⟨m, hm, hmem, hle, hall⟩ := ih a
        refine ⟨m, by simpa [selStep, h] using hm, ?_, le_trans hle (le_of_lt h), ?_⟩
        · rcases hmem with rfl | hm2
          · exact Or.inr (List.mem_cons_self _ _)
          · exact Or.inr (List.mem_cons_of_mem _ hm2)
        · intro y hy
          rcases List.mem_cons.mp hy with rfl | hy2
          · exact hle
          · exact hall y hy2
      · obtain ⟨m, hm, hmem, hle, hall⟩ := ih c
        refine ⟨m, by simpa [selStep, h] using hm, ?_, hle, ?_⟩
        · rcases hmem with rfl | hm2
          · exact Or.inl rfl
          · exact Or.inr (List.mem_cons_of_mem _ hm2)
        · intro y hy
          rcases List.mem_cons.mp hy with rfl | hy2
          · exact le_trans hle (not_lt.mp h)
          · exact hall y hy2

theorem selectMin_cons (dist : DistF) (a : Int) (l : List Int) :
    selectMin dist (a :: l) = l.foldl (selStep dist) (some a) := by
  unfold selectMin
  rfl

theorem selectMin_spec (dist : DistF) (l : List Int) (hl : l ≠ []) :
    ∃ m, selectMin dist l = some m ∧ m ∈ l ∧ ∀ y ∈ l, dist m ≤ dist y := by
  cases l with
  | nil => exact absurd rfl hl
  | cons a l =>
      obtain ⟨m, hm, hmem, hle, hall⟩ := selectMin_go dist l a
      refine ⟨m, by rw [selectMin_cons, hm], ?_, ?_⟩
      · rcases hmem with rfl | h
        · exact List.mem_cons_self _ _
        · exact List.mem_cons_of_mem _ h
      · intro y hy
        rcases List.mem_cons.mp hy with rfl | hy2
        · exact hle
        · exact hall y hy2

theorem selectMin_mem {dist : DistF} {l : List Int} {m : Int}
    (h : selectMin dist l = some m) : m ∈ l := by
  cases l with
  | nil => simp [selectMin] at h
  | cons a l =>
      obtain ⟨m', hm', hmem, _, _⟩ := selectMin_go dist l a
      rw [selectMin_cons, hm'] at h
      cases h
      rcases hmem with rfl | h2
      · exact List.mem_cons_self _ _
      · exact List.mem_cons_of_mem _ h2

/-! ### Lemmas: the reconstruction loop -/

/-- Once `current` is `undefined` the loop can never exit: every further
read of `prev` yields `undefined` again and `undefined !== null`. -/
theorem backtrack_undef_none (ids : List Int) (prev : PrevF) :
    ∀ (fuel : Nat) (acc : List Int),
      backtrack ids prev fuel JsCur.undef acc = none := by
  intro fuel
  induction fuel with
  | zero => intro acc; rfl
  | succ f ih => intro acc; exact ih acc

/-- Starting the walk at an id that is not a key of `prev` (not a node id)
makes `current` become `undefined` after one iteration, so the loop never
exits. -/
theorem backtrack_missing_none (ids : List Int) (prev : PrevF) {i : Int}
    (hi : i ∉ ids) :
    ∀ (fuel : Nat) (acc : List Int),
      backtrack ids prev fuel (JsCur.num i) acc = none := by
  intro fuel acc
  cases fuel with
  | zero => rfl
  | succ f =>
      show backtrack ids prev f (if i ∈ ids then _ else JsCur.undef) (i :: acc) = none
      rw [if_neg hi]
      exact backtrack_undef_none ids prev f (i :: acc)

theorem PrevChain.ne_nil {prev : PrevF} {start v : Int} {p : List Int}
    (h : PrevChain prev start v p) : p ≠ [] := by
  cases h with
  | base _ => simp
  | step _ _ => simp

theorem PrevChain.head (h : PrevChain prev start v p) : p.head? = some start := by
  induction h with
  | base _ => rfl
  | step hpv hc ih =>
      rename_i v' u' p'
      cases p' with
      | nil => exact absurd rfl hc.ne_nil
      | cons a q => simpa using ih

/-- With enough fuel, the reconstruction loop follows a `prev` chain whose
ids are all keys and returns exactly that chain (prepended to whatever was
accumulated). -/
theorem backtrack_chain {ids : List Int} {prev : PrevF} {start v : Int}
    {p : List Int} (h : PrevChain prev start v p) (hids : ∀ x ∈ p, x ∈ ids) :
    ∀ (fuel : Nat), p.length + 1 ≤ fuel → ∀ acc : List Int,
      backtrack ids prev fuel (JsCur.num v) acc = some (p ++ acc) := by
  induction h with
  | base hps =>
      intro fuel hf acc
      match fuel, hf with
      | Nat.succ (Nat.succ f), _ =>
          show backtrack ids prev (f + 1)
            (if start ∈ ids then _ else JsCur.undef) (start :: acc) = _
          rw [if_pos (hids start (by simp)), hps]
          rfl
  | step hpv hc ih =>
      rename_i v' u' p'
      intro fuel hf acc
      match fuel, hf with
      | Nat.succ f, hf =>
          show backtrack ids prev f
            (if v' ∈ ids then _ else JsCur.undef) (v' :: acc) = _
          rw [if_pos (hids v' (by simp)), hpv]
          show backtrack ids prev f (JsCur.num u') (v' :: acc) = _
          rw [ih (fun x hx => hids x (by simp [hx])) f
            (by simpa [Nat.succ_le_succ_iff] using hf) (v' :: acc)]
          simp

/-! ### Lemmas: relaxation -/

theorem RelaxRel.refl_rel {edges : List WEdge} {m : Int} {unvisited : List Int}
    {dp : DistF × PrevF} : RelaxRel edges m unvisited dp dp :=
  ⟨fun _ => Or.inl ⟨Eq.refl _, Eq.refl _⟩⟩

theorem RelaxRel.fst_le {edges : List WEdge} {m : Int} {unvisited : List Int}
    {dp dp' : DistF × PrevF} (h : RelaxRel edges m unvisited dp dp') (x : Int) :
    dp'.1 x ≤ dp.1 x := by
  rcases h.cases x with ⟨h1, _⟩ | ⟨_, _, hlt, _⟩
  · exact le_of_eq h1
  · exact le_of_lt hlt

theorem RelaxRel.fst_not_mem {edges : List WEdge} {m : Int} {unvisited : List Int}
    {dp dp' : DistF × PrevF} (h : RelaxRel edges m unvisited dp dp') {x : Int}
    (hx : x ∉ unvisited) : dp'.1 x = dp.1 x ∧ dp'.2 x = dp.2 x := by
  rcases h.cases x with h1 | ⟨hmem, _⟩
  · exact h1
  · exact absurd hmem hx

theorem RelaxRel.trans {edges : List WEdge} {m : Int} {unvisited : List Int}
    {dp dp₁ dp₂ : DistF × PrevF} (hm : m ∉ unvisited)
    (h1 : RelaxRel edges m unvisited dp dp₁)
    (h2 : RelaxRel edges m unvisited dp₁ dp₂) :
    RelaxRel edges m unvisited dp dp₂ := by
  have hdistm : dp₁.1 m = dp.1 m := (h1.fst_not_mem hm).1
  refine ⟨fun x => ?_⟩
  rcases h2.cases x with ⟨h2a, h2b⟩ | ⟨hmem, hprev, hlt, e, he, hef, het, heq⟩
  · rcases h1.cases x with ⟨h1a, h1b⟩ | ⟨hmem, hprev, hlt, e, he, hef, het, heq⟩
    · exact Or.inl ⟨h2a.trans h1a, h2b.trans h1b⟩
    · exact Or.inr ⟨hmem, h2b.trans hprev, h2a.trans_lt hlt, e, he, hef, het,
        h2a.trans heq⟩
  · exact Or.inr ⟨hmem, hprev, hlt.trans_le (h1.fst_le x), e, he, hef, het,
      heq.trans (by rw [hdistm])⟩

theorem relaxStep_rel {edges : List WEdge} {m : Int} {unvisited : List Int}
    {dp : DistF × PrevF} {e : WEdge} (he : e ∈ edges) (hef : e.from_ = m) :
    RelaxRel edges m unvisited dp (relaxStep m unvisited dp e) := by
  unfold relaxStep
  by_cases hto : e.to_ ∈ unvisited
  · rw [if_pos hto]
    by_cases hlt : dp.1 m + (e.weight : WithTop ℚ) < dp.1 e.to_
    · rw [if_pos hlt]
      refine ⟨fun x => ?_⟩
      by_cases hx : x = e.to_
      · subst hx
        exact Or.inr ⟨hto, by simp, by simpa using hlt, e, he, hef, Eq.refl _, by simp⟩
      · exact Or.inl ⟨by simp [hx], by simp [hx]⟩
    · rw [if_neg hlt]
      exact RelaxRel.refl_rel
  · rw [if_neg hto]
    exact RelaxRel.refl_rel

theorem relaxFold_rel {edges : List WEdge} {m : Int} {unvisited : List Int}
    (hm : m ∉ unvisited) :
    ∀ (es : List WEdge) (dp : DistF × PrevF),
      (∀ e ∈ es, e ∈ edges ∧ e.from_ = m) →
      RelaxRel edges m unvisited dp (es.foldl (relaxStep m unvisited) dp) := by
  intro es
  induction es with
  | nil => intro dp _; exact RelaxRel.refl_rel
  | cons e es ih =>
      intro dp hes
      simp only [List.foldl_cons]
      exact RelaxRel.trans hm
        (relaxStep_rel (hes e (by simp)).1 (hes e (by simp)).2)
        (ih _ (fun e' he' => hes e' (by simp [he'])))

theorem mem_filter_from {edges : List WEdge} {m : Int} {e : WEdge}
    (he : e ∈ edges.filter (fun e => e.from_ == m)) : e ∈ edges ∧ e.from_ = m := by
  rw [List.mem_filter] at he
  exact ⟨he.1, by simpa using he.2⟩

theorem relaxAll_rel {edges : List WEdge} {m : Int} {unvisited : List Int}
    (hm : m ∉ unvisited) (dp : DistF × PrevF) :
    RelaxRel edges m unvisited dp (relaxAll edges m unvisited dp) :=
  relaxFold_rel hm _ dp (fun _ he => mem_filter_from he)

theorem relaxFold_bound {edges : List WEdge} {m : Int} {unvisited : List Int}
    (hm : m ∉ unvisited) :
    ∀ (es : List WEdge) (dp : DistF × PrevF),
      (∀ e ∈ es, e ∈ edges ∧ e.from_ = m) →
      ∀ e ∈ es, e.to_ ∈ unvisited →
        (es.foldl (relaxStep m unvisited) dp).1 e.to_ ≤
          dp.1 m + (e.weight : WithTop ℚ) := by
  intro es
  induction es with
  | nil => intro dp _ e he; exact absurd he (by simp)
  | cons e₀ es ih =>
      intro dp hes e he hto
      simp only [List.foldl_cons]
      have hstep := @relaxStep_rel edges m unvisited dp e₀
        (hes e₀ (by simp)).1 (hes e₀ (by simp)).2
      have hrest := relaxFold_rel hm es (relaxStep m unvisited dp e₀)
        (fun e' he' => hes e' (by simp [he']))
      have hdistm : (relaxStep m unvisited dp e₀).1 m = dp.1 m :=
        (hstep.fst_not_mem hm).1
      rcases List.mem_cons.mp he with rfl | he2
      · have h1 : (relaxStep m unvisited dp e).1 e.to_ ≤
            dp.1 m + (e.weight : WithTop ℚ) := by
          unfold relaxStep
          rw [if_pos hto]
          by_cases hlt : dp.1 m + (e.weight : WithTop ℚ) < dp.1 e.to_
          · rw [if_pos hlt]
            simp
          · rw [if_neg hlt]
            exact not_lt.mp hlt
        exact le_trans (hrest.fst_le e.to_) h1
      · exact le_trans (ih _ (fun e' he' => hes e' (by simp [he'])) e he2 hto)
          (by rw [hdistm])

theorem relaxAll_bound {edges : List WEdge} {m : Int} {unvisited : List Int}
    (hm : m ∉ unvisited) (dp : DistF × PrevF) {e : WEdge} (he : e ∈ edges)
    (hef : e.from_ = m) (hto : e.to_ ∈ unvisited) :
    (relaxAll edges m unvisited dp).1 e.to_ ≤ dp.1 m + (e.weight : WithTop ℚ) := by
  refine relaxFold_bound hm _ dp (fun _ h => mem_filter_from h) e ?_ hto
  rw [List.mem_filter]
  exact ⟨he, by simpa using hef⟩

/-! ### Lemmas: edge paths -/

theorem epWeight_nil : epWeight [] = 0 := rfl

theorem epWeight_cons (e : WEdge) (p : List WEdge) :
    epWeight (e :: p) = e.weight + epWeight p := by
  unfold epWeight
  simp

theorem epWeight_append (p q : List WEdge) :
    epWeight (p ++ q) = epWeight p + epWeight q := by
  unfold epWeight
  simp

theorem IsEdgePath.mem_edges {edges : List WEdge} {a b : Int} {p : List WEdge}
    (h : IsEdgePath edges a b p) : ∀ e ∈ p, e ∈ edges := by
  induction h with
  | nil => simp
  | cons e he _ ih =>
      intro e' he'
      rcases List.mem_cons.mp he' with rfl | h2
      · exact he
      · exact ih e' h2

theorem epWeight_nonneg {edges : List WEdge} (hw : ∀ e ∈ edges, 0 ≤ e.weight)
    {a b : Int} {p : List WEdge} (h : IsEdgePath edges a b p) : 0 ≤ epWeight p := by
  induction h with
  | nil => exact le_refl 0
  | cons e he _ ih =>
      rw [epWeight_cons]
      exact add_nonneg (hw e he) ih

theorem IsEdgePath.append_last {edges : List WEdge} {a b : Int} {p : List WEdge}
    (h : IsEdgePath edges a b p) {e : WEdge} (he : e ∈ edges) (hef : e.from_ = b) :
    IsEdgePath edges a e.to_ (p ++ [e]) := by
  induction h with
  | nil c =>
      subst hef
      exact IsEdgePath.cons e he (IsEdgePath.nil e.to_)
  | cons e' he' rest ih =>
      exact IsEdgePath.cons e' he' (ih hef)

theorem epNodes_append_last (a : Int) (p : List WEdge) (e : WEdge) :
    epNodes a (p ++ [e]) = epNodes a p ++ [e.to_] := by
  unfold epNodes
  simp

/-! ### Lemmas: initial invariants -/

theorem basicInv_init (edges : List WEdge) (start : Int) (nodes : List Node) :
    BasicInv edges start (insertOrderDedup (nodes.map Node.id))
      (insertOrderDedup (nodes.map Node.id)) (initDist nodes start)
      (initPrev nodes) := by
  refine ⟨fun x hx => hx, insertOrderDedup_nodup _, ?_, ?_, ?_, ?_, ?_⟩
  · intro x hx
    rw [initDist_eq, initPrev_eq]
    rw [insertOrderDedup_mem] at hx
    simp [hx]
  · intro v hv
    rw [initDist_eq] at hv ⊢
    by_cases h : v ∈ nodes.map Node.id ∧ v = start
    · obtain ⟨h1, rfl⟩ := h
      refine ⟨0, by simp [h1], [], IsEdgePath.nil _, rfl⟩
    · exfalso
      apply hv
      by_cases h1 : v ∈ nodes.map Node.id
      · have h2 : ¬ v = start := fun hh => h ⟨h1, hh⟩
        simp [h1, h2]
      · simp [h1]
  · intro v u hvu
    rw [initPrev_eq] at hvu
    cases hvu
  · intro v hv
    rw [initDist_eq] at hv
    by_cases h1 : v ∈ nodes.map Node.id
    · by_cases h2 : v = start
      · exact Or.inl h2
      · simp [h1, h2] at hv
    · simp [h1] at hv
  · refine ⟨[], List.nodup_nil, ?_, ?_⟩
    · intro x
      simp only [List.not_mem_nil, false_iff]
      rintro ⟨_, hx2⟩
      exact hx2 (by assumption)
    · intro v u hvu
      rw [initPrev_eq] at hvu
      cases hvu

theorem dijInv_init (edges : List WEdge) (start : Int) (nodes : List Node)
    (hs : start ∈ nodes.map Node.id) :
    DijInv edges start (insertOrderDedup (nodes.map Node.id))
      (insertOrderDedup (nodes.map Node.id)) (initDist nodes start)
      (initPrev nodes) := by
  have hnovis : ∀ x, ¬ VisitedIn (insertOrderDedup (nodes.map Node.id))
      (insertOrderDedup (nodes.map Node.id)) x := fun x ⟨h1, h2⟩ => h2 h1
  refine ⟨basicInv_init edges start nodes, ?_, initPrev_eq nodes start, ?_, ?_, ?_, ?_, ?_⟩
  · simp [initDist_eq, hs]
  · intro v
    rw [initDist_eq]
    by_cases h1 : v ∈ nodes.map Node.id
    · rw [if_pos h1]
      by_cases h2 : v = start
      · rw [if_pos h2]
      · rw [if_neg h2]
        exact le_top
    · rw [if_neg h1]
      exact le_top
  · intro u hu
    exact absurd hu (hnovis u)
  · intro u hu
    exact absurd hu (hnovis u)
  · intro u hu
    exact absurd hu (hnovis u)
  · intro u hu
    exact absurd hu (hnovis u)

/-! ### Lemmas: preservation of the invariants by one loop iteration -/

theorem selectMin_min {dist : DistF} {l : List Int} {m : Int}
    (h : selectMin dist l = some m) : ∀ y ∈ l, dist m ≤ dist y := by
  have hl : l ≠ [] := by
    intro h0
    subst h0
    simp [selectMin] at h
  obtain ⟨m', h', _, hmin⟩ := selectMin_spec dist l hl
  rw [h] at h'
  cases h'
  exact hmin

theorem coe_wt_nonneg {q : ℚ} (h : 0 ≤ q) : (0 : WithTop ℚ) ≤ (q : WithTop ℚ) := by
  exact_mod_cast h

theorem basicInv_step {edges : List WEdge} {start : Int} {ids unvisited : List Int}
    {dist : DistF} {prev : PrevF} {m : Int}
    (inv : BasicInv edges start ids unvisited dist prev)
    (hm : m ∈ unvisited) (hfin : dist m ≠ ⊤) :
    BasicInv edges start ids (unvisited.erase m)
      (relaxAll edges m (unvisited.erase m) (dist, prev)).1
      (relaxAll edges m (unvisited.erase m) (dist, prev)).2 := by
  have hm' : m ∉ unvisited.erase m := fun hc =>
    ((inv.nodup.mem_erase_iff).1 hc).1 rfl
  have R := @relaxAll_rel edges m (unvisited.erase m) hm' (dist, prev)
  set dp' := relaxAll edges m (unvisited.erase m) (dist, prev) with hdp'
  have Rc : ∀ x, (dp'.1 x = dist x ∧ dp'.2 x = prev x) ∨
      (x ∈ unvisited.erase m ∧ dp'.2 x = some m ∧ dp'.1 x < dist x ∧
        ∃ e ∈ edges, e.from_ = m ∧ e.to_ = x ∧
          dp'.1 x = dist m + (e.weight : WithTop ℚ)) := R.cases
  have Rfix : ∀ {x : Int}, x ∉ unvisited.erase m →
      dp'.1 x = dist x ∧ dp'.2 x = prev x := fun hx => R.fst_not_mem hx
  have hsub' : ∀ x ∈ unvisited.erase m, x ∈ ids :=
    fun x hx => inv.sub x (List.mem_of_mem_erase hx)
  refine ⟨hsub', inv.nodup.erase m, ?_, ?_, ?_, ?_, ?_⟩
  · intro x hx
    rcases Rc x with ⟨h1, h2⟩ | ⟨hxu, _⟩
    · rw [h1, h2]
      exact inv.out x hx
    · exact absurd (hsub' x hxu) hx
  · intro v hv
    rcases Rc v with ⟨h1, _⟩ | ⟨_, _, _, e, he, hef, het, heq⟩
    · rw [h1] at hv ⊢
      exact inv.reach v hv
    · obtain ⟨qm, hqm, pm, hpm, hwt⟩ := inv.reach m hfin
      refine ⟨qm + e.weight, ?_, pm ++ [e], ?_, ?_⟩
      · rw [heq, hqm]
        push_cast
        rfl
      · have := hpm.append_last he hef
        rwa [het] at this
      · rw [epWeight_append, hwt, epWeight_cons, epWeight_nil, add_zero]
  · intro v u hvu
    rcases Rc v with ⟨h1, h2⟩ | ⟨hvu', hp, _, e, he, hef, het, heq⟩
    · rw [h2] at hvu
      obtain ⟨hvT, huT, ⟨huids, hunvis⟩, e, he, hef, het, heq⟩ := inv.prevSpec v u hvu
      have huu' : u ∉ unvisited.erase m := fun hc => hunvis (List.mem_of_mem_erase hc)
      have hu_un := Rfix huu'
      refine ⟨by rw [h1]; exact hvT, by rw [hu_un.1]; exact huT,
        ⟨huids, huu'⟩, e, he, hef, het, ?_⟩
      rw [h1, hu_un.1, heq]
    · rw [hp] at hvu
      cases hvu
      have hmfix := Rfix hm'
      have hneT : dp'.1 v ≠ ⊤ := by
        rw [heq]
        exact WithTop.add_ne_top.2 ⟨hfin, WithTop.coe_ne_top⟩
      refine ⟨hneT, by rw [hmfix.1]; exact hfin, ⟨inv.sub m hm, hm'⟩,
        e, he, hef, het, ?_⟩
      rw [heq, hmfix.1]
  · intro v hv
    rcases Rc v with ⟨h1, h2⟩ | ⟨_, hp, _⟩
    · rw [h1] at hv
      rcases inv.finPrev v hv with h | ⟨u, hu⟩
      · exact Or.inl h
      · exact Or.inr ⟨u, by rw [h2]; exact hu⟩
    · exact Or.inr ⟨m, hp⟩
  · obtain ⟨vis, hnd, hmem, hcond⟩ := inv.chain
    have hmvis : m ∉ vis := fun hc => ((hmem m).1 hc).2 hm
    refine ⟨vis ++ [m], ?_, ?_, ?_⟩
    · rw [List.nodup_append]
      exact ⟨hnd, List.nodup_singleton m, by simpa using hmvis⟩
    · intro x
      rw [List.mem_append, List.mem_singleton]
      constructor
      · rintro (hx | rfl)
        · obtain ⟨h1, h2⟩ := (hmem x).1 hx
          exact ⟨h1, fun hc => h2 (List.mem_of_mem_erase hc)⟩
        · exact ⟨inv.sub _ hm, hm'⟩
      · rintro ⟨hxids, hxu'⟩
        by_cases hxm : x = m
        · exact Or.inr hxm
        · refine Or.inl ((hmem x).2 ⟨hxids, fun hc => ?_⟩)
          exact hxu' ((List.mem_erase_of_ne hxm).2 hc)
    · intro v u hvu
      rcases Rc v with ⟨h1, h2⟩ | ⟨hvu', hp, _⟩
      · rw [h2] at hvu
        obtain ⟨huvis, hidx⟩ := hcond v u hvu
        refine ⟨List.mem_append.2 (Or.inl huvis), ?_⟩
        intro hv'
        rcases List.mem_append.1 hv' with hv1 | hv1
        · rw [List.indexOf_append_of_mem huvis, List.indexOf_append_of_mem hv1]
          exact hidx hv1
        · rw [List.mem_singleton] at hv1
          subst hv1
          rw [List.indexOf_append_of_mem huvis,
            List.indexOf_append_of_not_mem hmvis]
          calc vis.indexOf u < vis.length := List.indexOf_lt_length.2 huvis
            _ ≤ vis.length + [v].indexOf v := Nat.le_add_right _ _
      · rw [hp] at hvu
        cases hvu
        refine ⟨List.mem_append.2 (Or.inr (by simp)), ?_⟩
        intro hv'
        rcases List.mem_append.1 hv' with hv1 | hv1
        · exact absurd (List.mem_of_mem_erase hvu') ((hmem v).1 hv1).2
        · exfalso
          rw [List.mem_singleton] at hv1
          subst hv1
          exact hm' hvu'

theorem dij_key_aux {edges : List WEdge} {start : Int} {ids unvisited : List Int}
    {dist : DistF} {prev : PrevF} {m : Int}
    (hw : ∀ e ∈ edges, 0 ≤ e.weight)
    (hclosed : ∀ e ∈ edges, e.from_ ∈ ids ∧ e.to_ ∈ ids)
    (inv : DijInv edges start ids unvisited dist prev)
    (hmin : ∀ y ∈ unvisited, dist m ≤ dist y) :
    ∀ {a v : Int} {p : List WEdge}, IsEdgePath edges a v p →
      VisitedIn ids unvisited a → v ∈ unvisited →
      dist m ≤ dist a + ((epWeight p : ℚ) : WithTop ℚ) := by
  intro a v p hpath
  induction hpath with
  | nil c =>
      intro hvisa hvuv
      exact absurd hvuv hvisa.2
  | cons e he rest ih =>
      rename_i b p'
      intro hvisa hvuv
      have hto_ids : e.to_ ∈ ids := (hclosed e he).2
      have hbound : dist e.to_ ≤ dist e.from_ + (e.weight : WithTop ℚ) :=
        inv.edgeBound e.from_ hvisa e he rfl hto_ids
      have hwp' : (0 : WithTop ℚ) ≤ ((epWeight p' : ℚ) : WithTop ℚ) :=
        coe_wt_nonneg (epWeight_nonneg hw rest)
      have harr : dist e.from_ + ((epWeight (e :: p') : ℚ) : WithTop ℚ) =
          (dist e.from_ + (e.weight : WithTop ℚ)) +
            ((epWeight p' : ℚ) : WithTop ℚ) := by
        rw [epWeight_cons]
        push_cast
        rw [add_assoc]
      by_cases hto : e.to_ ∈ unvisited
      · calc dist m ≤ dist e.to_ := hmin _ hto
          _ ≤ dist e.from_ + (e.weight : WithTop ℚ) := hbound
          _ ≤ (dist e.from_ + (e.weight : WithTop ℚ)) +
                ((epWeight p' : ℚ) : WithTop ℚ) := le_add_of_nonneg_right hwp'
          _ = dist e.from_ + ((epWeight (e :: p') : ℚ) : WithTop ℚ) := harr.symm
      · calc dist m ≤ dist e.to_ + ((epWeight p' : ℚ) : WithTop ℚ) :=
              ih ⟨hto_ids, hto⟩ hvuv
          _ ≤ (dist e.from_ + (e.weight : WithTop ℚ)) +
                ((epWeight p' : ℚ) : WithTop ℚ) := add_le_add_right hbound _
          _ = dist e.from_ + ((epWeight (e :: p') : ℚ) : WithTop ℚ) := harr.symm

theorem dij_key {edges : List WEdge} {start : Int} {ids unvisited : List Int}
    {dist : DistF} {prev : PrevF} {m : Int}
    (hw : ∀ e ∈ edges, 0 ≤ e.weight)
    (hclosed : ∀ e ∈ edges, e.from_ ∈ ids ∧ e.to_ ∈ ids)
    (hs : start ∈ ids)
    (inv : DijInv edges start ids unvisited dist prev)
    (hmin : ∀ y ∈ unvisited, dist m ≤ dist y)
    {v : Int} (hv : v ∈ unvisited) {p : List WEdge}
    (hpath : IsEdgePath edges start v p) :
    dist m ≤ ((epWeight p : ℚ) : WithTop ℚ) := by
  by_cases hsu : start ∈ unvisited
  · calc dist m ≤ dist start := hmin _ hsu
      _ = 0 := inv.startZero
      _ ≤ ((epWeight p : ℚ) : WithTop ℚ) := coe_wt_nonneg (epWeight_nonneg hw hpath)
  · have h := dij_key_aux hw hclosed inv hmin hpath ⟨hs, hsu⟩ hv
    rwa [inv.startZero, zero_add] at h

theorem dijInv_step {edges : List WEdge} {start : Int} {ids unvisited : List Int}
    {dist : DistF} {prev : PrevF} {m : Int}
    (hw : ∀ e ∈ edges, 0 ≤ e.weight)
    (hclosed : ∀ e ∈ edges, e.from_ ∈ ids ∧ e.to_ ∈ ids)
    (hs : start ∈ ids)
    (inv : DijInv edges start ids unvisited dist prev)
    (hsel : selectMin dist unvisited = some m) (hfin : dist m ≠ ⊤) :
    DijInv edges start ids (unvisited.erase m)
      (relaxAll edges m (unvisited.erase m) (dist, prev)).1
      (relaxAll edges m (unvisited.erase m) (dist, prev)).2 := by
  have hm : m ∈ unvisited := selectMin_mem hsel
  have hmin : ∀ y ∈ unvisited, dist m ≤ dist y := selectMin_min hsel
  have hm' : m ∉ unvisited.erase m := fun hc =>
    (((inv.basic).nodup.mem_erase_iff).1 hc).1 rfl
  have R := @relaxAll_rel edges m (unvisited.erase m) hm' (dist, prev)
  set dp' := relaxAll edges m (unvisited.erase m) (dist, prev) with hdp'
  have Rc : ∀ x, (dp'.1 x = dist x ∧ dp'.2 x = prev x) ∨
      (x ∈ unvisited.erase m ∧ dp'.2 x = some m ∧ dp'.1 x < dist x ∧
        ∃ e ∈ edges, e.from_ = m ∧ e.to_ = x ∧
          dp'.1 x = dist m + (e.weight : WithTop ℚ)) := R.cases
  have Rfix : ∀ {x : Int}, x ∉ unvisited.erase m →
      dp'.1 x = dist x ∧ dp'.2 x = prev x := fun hx => R.fst_not_mem hx
  have Rle : ∀ x, dp'.1 x ≤ dist x := fun x => R.fst_le x
  have hnonneg' : ∀ v, 0 ≤ dp'.1 v := by
    intro v
    rcases Rc v with ⟨h1, _⟩ | ⟨_, _, _, e, he, _, _, heq⟩
    · rw [h1]
      exact inv.nonneg v
    · rw [heq]
      exact add_nonneg (inv.nonneg m) (coe_wt_nonneg (hw e he))
  have hvisIn : ∀ {u : Int}, VisitedIn ids (unvisited.erase m) u →
      u = m ∨ VisitedIn ids unvisited u := by
    rintro u ⟨huids, hu'⟩
    by_cases hum : u = m
    · exact Or.inl hum
    · refine Or.inr ⟨huids, fun hc => ?_⟩
      exact hu' ((List.mem_erase_of_ne hum).2 hc)
  refine ⟨basicInv_step inv.basic hm hfin, ?_, ?_, hnonneg', ?_, ?_, ?_, ?_⟩
  · rcases Rc start with ⟨h1, _⟩ | ⟨_, _, hlt, _⟩
    · rw [h1]
      exact inv.startZero
    · exfalso
      rw [inv.startZero] at hlt
      exact absurd hlt (not_lt.2 (hnonneg' start))
  · rcases Rc start with ⟨_, h2⟩ | ⟨_, _, hlt, _⟩
    · rw [h2]
      exact inv.startPrev
    · exfalso
      rw [inv.startZero] at hlt
      exact absurd hlt (not_lt.2 (hnonneg' start))
  · intro u hu
    have hufix := Rfix hu.2
    rw [hufix.1]
    rcases hvisIn hu with hum | hvis
    · rw [hum]
      exact hfin
    · exact inv.visFin u hvis
  · intro u hu e he hef hto_ids
    have hufix := Rfix hu.2
    rw [hufix.1]
    rcases hvisIn hu with hum | hvis
    · rw [hum]
      rw [hum] at hef
      by_cases hto' : e.to_ ∈ unvisited.erase m
      · have := relaxAll_bound hm' (dist, prev) he hef hto'
        rw [← hdp'] at this
        exact this
      · have htofix := Rfix hto'
        rw [htofix.1]
        by_cases htom : e.to_ = m
        · rw [htom]
          exact le_add_of_nonneg_right (coe_wt_nonneg (hw e he))
        · have hvis_to : VisitedIn ids unvisited e.to_ := by
            refine ⟨hto_ids, fun hc => ?_⟩
            exact hto' ((List.mem_erase_of_ne htom).2 hc)
          calc dist e.to_ ≤ dist m := inv.visLe e.to_ hvis_to m hm
            _ ≤ dist m + (e.weight : WithTop ℚ) :=
                le_add_of_nonneg_right (coe_wt_nonneg (hw e he))
    · calc dp'.1 e.to_ ≤ dist e.to_ := Rle e.to_
        _ ≤ dist u + (e.weight : WithTop ℚ) := inv.edgeBound u hvis e he hef hto_ids
  · intro u hu v hv
    have hufix := Rfix hu.2
    rw [hufix.1]
    have hvunv : v ∈ unvisited := List.mem_of_mem_erase hv
    rcases Rc v with ⟨h1, _⟩ | ⟨_, _, _, e, he, _, _, heq⟩
    · rw [h1]
      rcases hvisIn hu with hum | hvis
      · rw [hum]
        exact hmin v hvunv
      · exact inv.visLe u hvis v hvunv
    · rw [heq]
      rcases hvisIn hu with hum | hvis
      · rw [hum]
        exact le_add_of_nonneg_right (coe_wt_nonneg (hw e he))
      · calc dist u ≤ dist m := inv.visLe u hvis m hm
          _ ≤ dist m + (e.weight : WithTop ℚ) :=
              le_add_of_nonneg_right (coe_wt_nonneg (hw e he))
  · intro u hu p hp
    have hufix := Rfix hu.2
    rw [hufix.1]
    rcases hvisIn hu with hum | hvis
    · rw [hum]
      rw [hum] at hp
      exact dij_key hw hclosed hs inv hmin hm hp
    · exact inv.visLB u hvis p hp

/-! ### Lemmas: running the search loop -/

theorem searchLoop_zero (edges : List WEdge) (endId : Int) (unvisited : List Int)
    (dp : DistF × PrevF) : searchLoop edges endId 0 unvisited dp = dp := rfl

theorem searchLoop_succ (edges : List WEdge) (endId : Int) (f : Nat)
    (unvisited : List Int) (dp : DistF × PrevF) :
    searchLoop edges endId (Nat.succ f) unvisited dp =
      if unvisited.isEmpty then dp
      else
        match selectMin dp.1 unvisited with
        | none => dp
        | some m =>
            if dp.1 m = ⊤ then dp
            else if m = endId then dp
            else searchLoop edges endId f (unvisited.erase m)
              (relaxAll edges m (unvisited.erase m) dp) := rfl

theorem searchLoop_basic_spec (edges : List WEdge) (start endId : Int)
    (ids : List Int) :
    ∀ (f : Nat) (unvisited : List Int) (dp : DistF × PrevF),
      BasicInv edges start ids unvisited dp.1 dp.2 →
      unvisited.length ≤ f →
      ∃ unv', BasicInv edges start ids unv'
        (searchLoop edges endId f unvisited dp).1
        (searchLoop edges endId f unvisited dp).2 := by
  intro f
  induction f with
  | zero =>
      intro unvisited dp hinv _
      exact ⟨unvisited, hinv⟩
  | succ f ih =>
      intro unvisited dp hinv hlen
      by_cases hempty : unvisited.isEmpty
      · rw [searchLoop_succ, if_pos hempty]
        exact ⟨unvisited, hinv⟩
      · have hne_nil : unvisited ≠ [] := fun h0 => hempty (by simp [h0])
        obtain ⟨m, hsel, hmem, hmin⟩ := selectMin_spec dp.1 unvisited hne_nil
        have hred : searchLoop edges endId (Nat.succ f) unvisited dp =
            (if dp.1 m = ⊤ then dp
             else if m = endId then dp
             else searchLoop edges endId f (unvisited.erase m)
               (relaxAll edges m (unvisited.erase m) dp)) := by
          rw [searchLoop_succ, if_neg hempty, hsel]
        rw [hred]
        by_cases hfin : dp.1 m = ⊤
        · rw [if_pos hfin]
          exact ⟨unvisited, hinv⟩
        · rw [if_neg hfin]
          by_cases hend : m = endId
          · rw [if_pos hend]
            exact ⟨unvisited, hinv⟩
          · rw [if_neg hend]
            have hinv' := basicInv_step hinv hmem hfin
            have hlen' : (unvisited.erase m).length ≤ f := by
              rw [List.length_erase_of_mem hmem]
              have : 1 ≤ unvisited.length := List.length_pos.2
                (fun h0 => by simp [h0] at hmem)
              omega
            exact ih (unvisited.erase m) (relaxAll edges m (unvisited.erase m) dp)
              hinv' hlen'

theorem searchLoop_dij_spec (edges : List WEdge) (start endId : Int)
    (ids : List Int)
    (hw : ∀ e ∈ edges, 0 ≤ e.weight)
    (hclosed : ∀ e ∈ edges, e.from_ ∈ ids ∧ e.to_ ∈ ids)
    (hs : start ∈ ids) :
    ∀ (f : Nat) (unvisited : List Int) (dp : DistF × PrevF),
      DijInv edges start ids unvisited dp.1 dp.2 →
      endId ∈ unvisited →
      unvisited.length ≤ f →
      ∃ unv', endId ∈ unv' ∧
        DijInv edges start ids unv'
          (searchLoop edges endId f unvisited dp).1
          (searchLoop edges endId f unvisited dp).2 ∧
        ∃ m, selectMin (searchLoop edges endId f unvisited dp).1 unv' = some m ∧
          ((searchLoop edges endId f unvisited dp).1 m = ⊤ ∨
            (m = endId ∧ (searchLoop edges endId f unvisited dp).1 m ≠ ⊤)) := by
  intro f
  induction f with
  | zero =>
      intro unvisited dp _ hend hlen
      rw [List.length_eq_zero.1 (Nat.le_zero.1 hlen)] at hend
      exact absurd hend (List.not_mem_nil endId)
  | succ f ih =>
      intro unvisited dp hinv hend hlen
      by_cases hempty : unvisited.isEmpty
      · rw [List.isEmpty_iff.1 hempty] at hend
        exact absurd hend (List.not_mem_nil endId)
      · have hne_nil : unvisited ≠ [] := fun h0 => hempty (by simp [h0])
        obtain ⟨m, hsel, hmem, hmin⟩ := selectMin_spec dp.1 unvisited hne_nil
        have hred : searchLoop edges endId (Nat.succ f) unvisited dp =
            (if dp.1 m = ⊤ then dp
             else if m = endId then dp
             else searchLoop edges endId f (unvisited.erase m)
               (relaxAll edges m (unvisited.erase m) dp)) := by
          rw [searchLoop_succ, if_neg hempty, hsel]
        rw [hred]
        by_cases hfin : dp.1 m = ⊤
        · rw [if_pos hfin]
          exact ⟨unvisited, hend, hinv, m, hsel, Or.inl hfin⟩
        · rw [if_neg hfin]
          by_cases hendm : m = endId
          · rw [if_pos hendm]
            exact ⟨unvisited, hend, hinv, m, hsel, Or.inr ⟨hendm, hfin⟩⟩
          · rw [if_neg hendm]
            have hinv' := dijInv_step hw hclosed hs hinv hsel hfin
            have hend' : endId ∈ unvisited.erase m :=
              (List.mem_erase_of_ne (fun h => hendm h.symm)).2 hend
            have hlen' : (unvisited.erase m).length ≤ f := by
              rw [List.length_erase_of_mem hmem]
              have : 1 ≤ unvisited.length := List.length_pos.2
                (fun h0 => by simp [h0] at hmem)
              omega
            exact ih (unvisited.erase m) (relaxAll edges m (unvisited.erase m) dp)
              hinv' hend' hlen'

/-! ### Lemmas: extracting the prev chain and its edge path -/

theorem chain_exists_vis {edges : List WEdge} {start : Int} {ids unvisited : List Int}
    {dist : DistF} {prev : PrevF}
    (inv : BasicInv edges start ids unvisited dist prev)
    {vis : List Int}
    (hmemv : ∀ x, x ∈ vis ↔ VisitedIn ids unvisited x)
    (hcond : ∀ v u, prev v = some u →
      u ∈ vis ∧ (v ∈ vis → vis.indexOf u < vis.indexOf v)) :
    ∀ (k : Nat) (u : Int), u ∈ vis → vis.indexOf u < k → dist u ≠ ⊤ →
      ∃ p, PrevChain prev start u p ∧ (∀ x ∈ p, x ∈ ids) ∧
        p.length ≤ vis.indexOf u + 1 := by
  intro k
  induction k with
  | zero =>
      intro u _ h _
      omega
  | succ k ih =>
      intro u huv hidx hfin
      rcases hprev : prev u with _ | w
      · rcases inv.finPrev u hfin with heq | ⟨w, hw⟩
        · subst heq
          refine ⟨[u], PrevChain.base hprev, ?_, by simp⟩
          intro x hx
          rw [List.mem_singleton] at hx
          subst hx
          exact ((hmemv x).1 huv).1
        · rw [hprev] at hw
          cases hw
      · obtain ⟨_, hfinW, _, _⟩ := inv.prevSpec u w hprev
        obtain ⟨hwvis, hidxw⟩ := hcond u w hprev
        have hidxw' := hidxw huv
        have hk : vis.indexOf w < k := by omega
        obtain ⟨p, hp, hpids, hplen⟩ := ih w hwvis hk hfinW
        refine ⟨p ++ [u], PrevChain.step hprev hp, ?_, ?_⟩
        · intro x hx
          rcases List.mem_append.1 hx with hx1 | hx1
          · exact hpids x hx1
          · rw [List.mem_singleton] at hx1
            subst hx1
            exact ((hmemv x).1 huv).1
        · rw [List.length_append]
          simp only [List.length_singleton]
          omega

theorem chain_exists {edges : List WEdge} {start : Int} {ids unvisited : List Int}
    {dist : DistF} {prev : PrevF}
    (inv : BasicInv edges start ids unvisited dist prev)
    (hs : start ∈ ids)
    {v : Int} (hfin : dist v ≠ ⊤) :
    ∃ p, PrevChain prev start v p ∧ (∀ x ∈ p, x ∈ ids) ∧
      p.length ≤ ids.length + 1 := by
  have hvids : v ∈ ids := by
    by_contra hv
    exact hfin (inv.out v hv).1
  obtain ⟨vis, hnd, hmemv, hcond⟩ := inv.chain
  have hvislen : vis.length ≤ ids.length := by
    refine (List.subperm_of_subset hnd ?_).length_le
    intro x hx
    exact ((hmemv x).1 hx).1
  rcases hprev : prev v with _ | w
  · rcases inv.finPrev v hfin with heq | ⟨w, hw⟩
    · subst heq
      refine ⟨[v], PrevChain.base hprev, ?_, ?_⟩
      · intro x hx
        rw [List.mem_singleton] at hx
        subst hx
        exact hs
      · simp only [List.length_singleton]
        omega
    · rw [hprev] at hw
      cases hw
  · obtain ⟨_, hfinW, _, _⟩ := inv.prevSpec v w hprev
    obtain ⟨hwvis, _⟩ := hcond v w hprev
    obtain ⟨p, hp, hpids, hplen⟩ := chain_exists_vis inv hmemv hcond vis.length w
      hwvis (List.indexOf_lt_length.2 hwvis) hfinW
    refine ⟨p ++ [v], PrevChain.step hprev hp, ?_, ?_⟩
    · intro x hx
      rcases List.mem_append.1 hx with hx1 | hx1
      · exact hpids x hx1
      · rw [List.mem_singleton] at hx1
        subst hx1
        exact hvids
    · rw [List.length_append]
      simp only [List.length_singleton]
      have := List.indexOf_lt_length.2 hwvis
      omega

theorem prevChain_realizes {edges : List WEdge} {start : Int}
    {ids unvisited : List Int} {dist : DistF} {prev : PrevF}
    (inv : BasicInv edges start ids unvisited dist prev)
    (hz : dist start = 0)
    {v : Int} {p : List Int} (hc : PrevChain prev start v p) :
    ∃ ep, IsEdgePath edges start v ep ∧
      dist v = ((epWeight ep : ℚ) : WithTop ℚ) ∧ epNodes start ep = p := by
  induction hc with
  | base h =>
      refine ⟨[], IsEdgePath.nil start, ?_, rfl⟩
      rw [hz, epWeight_nil]
      exact (WithTop.coe_zero).symm
  | step hpv hc ih =>
      rename_i v' u' p'
      obtain ⟨ep, hep, hwq, hn⟩ := ih
      obtain ⟨_, _, _, e, he, hef, het, heq⟩ := inv.prevSpec v' u' hpv
      refine ⟨ep ++ [e], ?_, ?_, ?_⟩
      · have h2 := hep.append_last he hef
        rwa [het] at h2
      · rw [heq, hwq, epWeight_append, epWeight_cons, epWeight_nil, add_zero]
        push_cast
        rfl
      · rw [epNodes_append_last, hn, het]

/-! ### The main behaviour theorems for dijkstra -/

theorem ids_len_le (g : WGraph) :
    (insertOrderDedup (g.nodes.map Node.id)).length ≤ g.nodes.length := by
  have h := (insertOrderDedup_sublist (g.nodes.map Node.id)).length_le
  rwa [List.length_map] at h

theorem dijkstraFuel_eq (fuel : Nat) (start endId : Int) (g : WGraph) :
    dijkstraFuel fuel start endId g =
      (backtrack (insertOrderDedup (g.nodes.map Node.id))
          (searchLoop g.edges endId (insertOrderDedup (g.nodes.map Node.id)).length
            (insertOrderDedup (g.nodes.map Node.id))
            (initDist g.nodes start, initPrev g.nodes)).2
          fuel (JsCur.num endId) []).map
        (dijkstraFinish start g
          (searchLoop g.edges endId (insertOrderDedup (g.nodes.map Node.id)).length
            (insertOrderDedup (g.nodes.map Node.id))
            (initDist g.nodes start, initPrev g.nodes)).1
          endId) := rfl

theorem dijkstra_eq_fuel (start endId : Int) (g : WGraph) :
    dijkstra start endId g = dijkstraFuel (g.nodes.length + 2) start endId g := rfl

theorem dijkstra_reachable (g : WGraph) (start endId : Int)
    (hw : ∀ e ∈ g.edges, 0 ≤ e.weight)
    (hclosed : ∀ e ∈ g.edges,
      e.from_ ∈ g.nodes.map Node.id ∧ e.to_ ∈ g.nodes.map Node.id)
    (hs : start ∈ g.nodes.map Node.id) (he : endId ∈ g.nodes.map Node.id)
    (hr : Reachable g.edges start endId) :
    ∃ r ep, dijkstra start endId g = some r ∧
      IsEdgePath g.edges start endId ep ∧
      r.path = epNodes start ep ∧
      r.totalWeight = ((epWeight ep : ℚ) : WithTop ℚ) ∧
      ∀ ep', IsEdgePath g.edges start endId ep' → epWeight ep ≤ epWeight ep' := by
  set ids := insertOrderDedup (g.nodes.map Node.id) with hids
  have hsid : start ∈ ids := (insertOrderDedup_mem _ _).2 hs
  have heid : endId ∈ ids := (insertOrderDedup_mem _ _).2 he
  have hclosed' : ∀ e ∈ g.edges, e.from_ ∈ ids ∧ e.to_ ∈ ids := by
    intro e he'
    exact ⟨(insertOrderDedup_mem _ _).2 (hclosed e he').1,
      (insertOrderDedup_mem _ _).2 (hclosed e he').2⟩
  obtain ⟨unv', hend', hinvF, m, hselF, hcase⟩ :=
    searchLoop_dij_spec g.edges start endId ids hw hclosed' hsid ids.length ids
      (initDist g.nodes start, initPrev g.nodes)
      (dijInv_init g.edges start g.nodes hs) heid (le_refl _)
  set dp' := searchLoop g.edges endId ids.length ids
    (initDist g.nodes start, initPrev g.nodes) with hdp'
  have hminF := selectMin_min hselF
  obtain ⟨pr, hpr⟩ := hr
  have hkey : ∀ {p' : List WEdge}, IsEdgePath g.edges start endId p' →
      dp'.1 m ≤ ((epWeight p' : ℚ) : WithTop ℚ) := by
    intro p' hp'
    exact dij_key hw hclosed' hsid hinvF hminF hend' hp'
  have hmend : m = endId ∧ dp'.1 endId ≠ ⊤ := by
    rcases hcase with htop | ⟨hm1, hm2⟩
    · exfalso
      have h2 := hkey hpr
      rw [htop] at h2
      exact WithTop.coe_ne_top (top_le_iff.1 h2)
    · exact ⟨hm1, hm1 ▸ hm2⟩
  obtain ⟨hmE, hfinE⟩ := hmend
  subst hmE
  obtain ⟨p, hc, hpids, hplen⟩ := chain_exists hinvF.basic hsid hfinE
  obtain ⟨ep, hep, hwEq, hnodes⟩ :=
    prevChain_realizes hinvF.basic hinvF.startZero hc
  have hbt : backtrack ids dp'.2 (g.nodes.length + 2) (JsCur.num m) [] =
      some p := by
    have hlen2 : ids.length ≤ g.nodes.length := by
      rw [hids]
      exact ids_len_le g
    have hfuel : p.length + 1 ≤ g.nodes.length + 2 := by omega
    have h := backtrack_chain hc hpids (g.nodes.length + 2) hfuel []
    simpa using h
  have hhead : p.head? = some start := hc.head
  refine ⟨{ path := p, totalWeight := dp'.1 m,
            totalDistance := pathDistance g.edges p,
            pathNodes := p.map (nodeMapGet g.nodes) }, ep, ?_, hep, hnodes.symm,
    hwEq, ?_⟩
  · rw [dijkstra_eq_fuel, dijkstraFuel_eq, ← hids, ← hdp', hbt, Option.map_some']
    unfold dijkstraFinish
    rw [if_pos hhead]
  · intro ep' hep'
    have h1 := hkey hep'
    rw [hwEq] at h1
    exact_mod_cast h1

theorem dijkstra_unreachable (g : WGraph) (start endId : Int)
    (he : endId ∈ g.nodes.map Node.id)
    (hur : ¬ Reachable g.edges start endId) :
    dijkstra start endId g = some noPathResult := by
  set ids := insertOrderDedup (g.nodes.map Node.id) with hids
  have heid : endId ∈ ids := (insertOrderDedup_mem _ _).2 he
  obtain ⟨unv', hinvF⟩ := searchLoop_basic_spec g.edges start endId ids ids.length
    ids (initDist g.nodes start, initPrev g.nodes)
    (basicInv_init g.edges start g.nodes) (le_refl _)
  set dp' := searchLoop g.edges endId ids.length ids
    (initDist g.nodes start, initPrev g.nodes) with hdp'
  have hfin : dp'.1 endId = ⊤ := by
    by_contra h
    obtain ⟨q, _, p, hp, _⟩ := hinvF.reach endId h
    exact hur ⟨p, hp⟩
  have hprevE : dp'.2 endId = none := by
    rcases hpe : dp'.2 endId with _ | u
    · rfl
    · obtain ⟨hfin2, _⟩ := hinvF.prevSpec endId u hpe
      exact absurd hfin hfin2
  have hne : start ≠ endId := by
    intro h
    exact hur ⟨[], h ▸ IsEdgePath.nil start⟩
  have hbt : backtrack ids dp'.2 (g.nodes.length + 2) (JsCur.num endId) [] =
      some [endId] := by
    show backtrack ids dp'.2 (g.nodes.length + 1)
      (if endId ∈ ids then
         match dp'.2 endId with
         | none => JsCur.null
         | some j => JsCur.num j
       else JsCur.undef) [endId] = some [endId]
    rw [if_pos heid, hprevE]
    rfl
  rw [dijkstra_eq_fuel, dijkstraFuel_eq, ← hids, ← hdp', hbt, Option.map_some']
  unfold dijkstraFinish
  rw [if_neg ?hcond]
  case hcond =>
    simp only [List.head?_cons, Option.some.injEq]
    exact fun h => hne h.symm

theorem searchLoop_allTop {edges : List WEdge} {endId : Int} {dp : DistF × PrevF}
    (hall : ∀ x, dp.1 x = ⊤) :
    ∀ (f : Nat) (unvisited : List Int), searchLoop edges endId f unvisited dp = dp := by
  intro f
  induction f with
  | zero => intro unvisited; rfl
  | succ f ih =>
      intro unvisited
      by_cases hempty : unvisited.isEmpty
      · rw [searchLoop_succ, if_pos hempty]
      · have hne_nil : unvisited ≠ [] := fun h0 => hempty (by simp [h0])
        obtain ⟨m, hsel, _, _⟩ := selectMin_spec dp.1 unvisited hne_nil
        have hred : searchLoop edges endId (Nat.succ f) unvisited dp =
            (if dp.1 m = ⊤ then dp
             else if m = endId then dp
             else searchLoop edges endId f (unvisited.erase m)
               (relaxAll edges m (unvisited.erase m) dp)) := by
          rw [searchLoop_succ, if_neg hempty, hsel]
        rw [hred, if_pos (hall m)]

theorem dijkstra_missing_start (g : WGraph) (start endId : Int)
    (hs : start ∉ g.nodes.map Node.id) (he : endId ∈ g.nodes.map Node.id)
    (hne : start ≠ endId) :
    dijkstra start endId g = some noPathResult := by
  set ids := insertOrderDedup (g.nodes.map Node.id) with hids
  have heid : endId ∈ ids := (insertOrderDedup_mem _ _).2 he
  have hall : ∀ x, (initDist g.nodes start, initPrev g.nodes).1 x = ⊤ := by
    intro x
    show initDist g.nodes start x = ⊤
    rw [initDist_eq]
    by_cases h1 : x ∈ g.nodes.map Node.id
    · rw [if_pos h1, if_neg (show ¬ x = start by intro h2; rw [h2] at h1; exact hs h1)]
    · rw [if_neg h1]
  have hL := @searchLoop_allTop g.edges endId
    (initDist g.nodes start, initPrev g.nodes) hall ids.length ids
  have hbt : backtrack ids (initDist g.nodes start, initPrev g.nodes).2
      (g.nodes.length + 2) (JsCur.num endId) [] = some [endId] := by
    show backtrack ids (initDist g.nodes start, initPrev g.nodes).2
      (g.nodes.length + 1)
      (if endId ∈ ids then
         match (initDist g.nodes start, initPrev g.nodes).2 endId with
         | none => JsCur.null
         | some j => JsCur.num j
       else JsCur.undef) [endId] = some [endId]
    rw [if_pos heid]
    show backtrack ids (initDist g.nodes start, initPrev g.nodes).2
      (g.nodes.length + 1)
      (match initPrev g.nodes endId with
       | none => JsCur.null
       | some j => JsCur.num j) [endId] = some [endId]
    rw [initPrev_eq]
    rfl
  rw [dijkstra_eq_fuel, dijkstraFuel_eq, ← hids, hL, hbt, Option.map_some']
  unfold dijkstraFinish
  rw [if_neg ?hcond]
  case hcond =>
    simp only [List.head?_cons, Option.some.injEq]
    exact fun h => hne h.symm

theorem dijkstraFuel_missing_end (g : WGraph) (start endId : Int)
    (he : endId ∉ g.nodes.map Node.id) :
    ∀ fuel, dijkstraFuel fuel start endId g = none := by
  intro fuel
  rw [dijkstraFuel_eq]
  rw [backtrack_missing_none _ _
    (fun hc => he ((insertOrderDedup_mem _ _).1 hc)) fuel []]
  rfl

theorem dijkstra_self (g : WGraph) (start : Int)
    (hs : start ∈ g.nodes.map Node.id) :
    dijkstra start start g = some
      { path := [start], totalWeight := 0, totalDistance := 0,
        pathNodes := [nodeMapGet g.nodes start] } := by
  set ids := insertOrderDedup (g.nodes.map Node.id) with hids
  have hsid : start ∈ ids := (insertOrderDedup_mem _ _).2 hs
  have hne_nil : ids ≠ [] := List.ne_nil_of_mem hsid
  have hd0 : initDist g.nodes start start = 0 := by
    rw [initDist_eq, if_pos hs]
    exact if_pos rfl
  have hloop : searchLoop g.edges start ids.length ids
      (initDist g.nodes start, initPrev g.nodes) =
      (initDist g.nodes start, initPrev g.nodes) := by
    obtain ⟨m, hsel, hmem, hmin⟩ :=
      selectMin_spec (initDist g.nodes start) ids hne_nil
    have h1 : initDist g.nodes start m ≤ 0 := by
      have := hmin start hsid
      rwa [hd0] at this
    have hm0 : initDist g.nodes start m = 0 := by
      rw [initDist_eq] at h1 ⊢
      by_cases hm1 : m ∈ g.nodes.map Node.id
      · by_cases hm2 : m = start
        · rw [if_pos hm1, if_pos hm2]
        · rw [if_pos hm1, if_neg hm2] at h1
          exact absurd h1 (by simp)
      · rw [if_neg hm1] at h1
        exact absurd h1 (by simp)
    have hmstart : m = start := by
      by_contra hm2
      rw [initDist_eq] at hm0
      by_cases hm1 : m ∈ g.nodes.map Node.id
      · rw [if_pos hm1, if_neg hm2] at hm0
        exact absurd hm0 (by simp)
      · rw [if_neg hm1] at hm0
        exact absurd hm0 (by simp)
    rcases hlen : ids.length with _ | k
    · exact absurd (List.length_eq_zero.1 hlen) hne_nil
    · have hempty : ¬ ids.isEmpty := by
        simp only [List.isEmpty_iff]
        exact hne_nil
      have hred : searchLoop g.edges start (Nat.succ k) ids
          (initDist g.nodes start, initPrev g.nodes) =
          (if (initDist g.nodes start, initPrev g.nodes).1 m = ⊤ then
            (initDist g.nodes start, initPrev g.nodes)
           else if m = start then (initDist g.nodes start, initPrev g.nodes)
           else searchLoop g.edges start k (ids.erase m)
             (relaxAll g.edges m (ids.erase m)
               (initDist g.nodes start, initPrev g.nodes))) := by
        rw [searchLoop_succ, if_neg hempty, hsel]
      rw [hred, if_neg (by show ¬ initDist g.nodes start m = ⊤; rw [hm0]; simp),
        if_pos hmstart]
  have hbt : backtrack ids (initDist g.nodes start, initPrev g.nodes).2
      (g.nodes.length + 2) (JsCur.num start) [] = some [start] := by
    show backtrack ids (initDist g.nodes start, initPrev g.nodes).2
      (g.nodes.length + 1)
      (if start ∈ ids then
         match (initDist g.nodes start, initPrev g.nodes).2 start with
         | none => JsCur.null
         | some j => JsCur.num j
       else JsCur.undef) [start] = some [start]
    rw [if_pos hsid]
    show backtrack ids (initDist g.nodes start, initPrev g.nodes).2
      (g.nodes.length + 1)
      (match initPrev g.nodes start with
       | none => JsCur.null
       | some j => JsCur.num j) [start] = some [start]
    rw [initPrev_eq]
    rfl
  rw [dijkstra_eq_fuel, dijkstraFuel_eq, ← hids, hloop, hbt, Option.map_some']
  unfold dijkstraFinish
  rw [if_pos (by simp)]
  have hd0' : (initDist g.nodes start, initPrev g.nodes).1 start =
      (0 : WithTop ℚ) := hd0
  rw [hd0']
  rfl

/-! ### Lemmas: weight initialization -/

theorem copyNode_id (n : Node) : copyNode n = n := rfl

theorem copyEdge_id (e : Edge) : copyEdge e = e := by
  have h1 : ∀ fl : List (String × ℚ), fl.map (fun p => (p.1, p.2)) = fl := by
    intro fl
    induction fl with
    | nil => rfl
    | cons p ps ih => simp [ih]
  cases e with
  | mk f t d fl =>
      unfold copyEdge
      simp only [h1]
      cases fl <;> rfl

theorem deepCopyGraph_id (g : Graph) : deepCopyGraph g = g := by
  have hn : ∀ ns : List Node, ns.map copyNode = ns := by
    intro ns
    induction ns with
    | nil => rfl
    | cons a t ih => simp [copyNode_id, ih]
  have he : ∀ es : List Edge, es.map copyEdge = es := by
    intro es
    induction es with
    | nil => rfl
    | cons a t ih => simp [copyEdge_id, ih]
  cases g with
  | mk nodes edges =>
      unfold deepCopyGraph
      rw [hn, he]

theorem weightEdges_some {t : String} : ∀ {es : List Edge} {ws : List WEdge},
    weightEdges t es = some ws →
    ws.length = es.length ∧
    ∀ (i : Nat) (hi : i < es.length) (hiw : i < ws.length),
      ∃ fl, (es.get ⟨i, hi⟩).flow = some fl ∧
        ws.get ⟨i, hiw⟩ =
          { from_ := (es.get ⟨i, hi⟩).from_,
            to_ := (es.get ⟨i, hi⟩).to_,
            distance := (es.get ⟨i, hi⟩).distance,
            weight := (es.get ⟨i, hi⟩).distance * (1 + flowRate fl t) } := by
  intro es
  induction es with
  | nil =>
      intro ws h
      unfold weightEdges at h
      cases h
      exact ⟨rfl, fun i hi => absurd hi (by simp)⟩
  | cons e es ih =>
      intro ws h
      unfold weightEdges at h
      rcases he : weightEdge t e with _ | w
      · rw [he] at h
        cases h
      · rw [he] at h
        rcases hes : weightEdges t es with _ | ws'
        · rw [hes] at h
          cases h
        · rw [hes] at h
          change some (w :: ws') = some ws at h
          cases h
          obtain ⟨hlen, hidx⟩ := ih hes
          refine ⟨by simp [hlen], ?_⟩
          intro i hi hiw
          cases i with
          | zero =>
              unfold weightEdge at he
              rcases hfl : e.flow with _ | fl
              · rw [hfl] at he
                cases he
              · rw [hfl] at he
                change some _ = some w at he
                cases he
                exact ⟨fl, by simpa using hfl, rfl⟩
          | succ j =>
              have hj : j < es.length := by simpa using hi
              have hjw : j < ws'.length := by
                rw [hlen]
                exact hj
              obtain ⟨fl, h1, h2⟩ := hidx j hj hjw
              exact ⟨fl, h1, h2⟩

theorem weightEdges_total {t : String} : ∀ {es : List Edge},
    (∀ e ∈ es, e.flow ≠ none) → ∃ ws, weightEdges t es = some ws := by
  intro es
  induction es with
  | nil => intro; exact ⟨[], rfl⟩
  | cons e es ih =>
      intro hfl
      obtain ⟨ws, hws⟩ := ih (fun e' he' => hfl e' (List.mem_cons_of_mem _ he'))
      rcases hfe : e.flow with _ | fl
      · exact absurd hfe (hfl e (List.mem_cons_self _ _))
      · have hwE : weightEdge t e = some
            { from_ := e.from_, to_ := e.to_, distance := e.distance,
              weight := e.distance * (1 + flowRate fl t) } := by
          unfold weightEdge
          rw [hfe]
        refine ⟨({ from_ := e.from_, to_ := e.to_,
                   distance := e.distance,
                   weight := e.distance * (1 + flowRate fl t) } : WEdge) :: ws,
          ?_⟩
        unfold weightEdges
        rw [hwE, hws]

theorem initEdgeWeights_eq (g : Graph) (t : String) :
    initEdgeWeights g t =
      (weightEdges t (deepCopyGraph g).edges).map
        (fun wes => { nodes := (deepCopyGraph g).nodes, edges := wes }) := rfl

theorem initEdgeWeights_some {g : Graph} {t : String} {wg : WGraph}
    (h : initEdgeWeights g t = some wg) :
    wg.nodes = g.nodes ∧ weightEdges t g.edges = some wg.edges := by
  rw [initEdgeWeights_eq, deepCopyGraph_id] at h
  rcases hw : weightEdges t g.edges with _ | ws
  · rw [hw] at h
    cases h
  · rw [hw, Option.map_some'] at h
    have h2 : ({ nodes := g.nodes, edges := ws } : WGraph) = wg :=
      Option.some.inj h
    rw [← h2]
    exact ⟨rfl, rfl⟩

theorem initEdgeWeights_total (g : Graph) (t : String)
    (hfl : ∀ e ∈ g.edges, e.flow ≠ none) :
    ∃ wg, initEdgeWeights g t = some wg := by
  obtain ⟨ws, hws⟩ := weightEdges_total (t := t) hfl
  refine ⟨{ nodes := g.nodes, edges := ws }, ?_⟩
  rw [initEdgeWeights_eq, deepCopyGraph_id, hws]
  rfl

/-! ### Lemmas: the tie-break of the minimum selection -/

theorem find_congr_bool {α : Type} {p q : α → Bool} :
    ∀ l : List α, (∀ x ∈ l, p x = q x) → l.find? p = l.find? q := by
  intro l
  induction l with
  | nil => intro _; rfl
  | cons a t ih =>
      intro h
      rw [List.find?_cons, List.find?_cons, h a (List.mem_cons_self _ _)]
      cases hqa : q a with
      | false => exact ih (fun x hx => h x (List.mem_cons_of_mem _ hx))
      | true => rfl

theorem selStep_some (dist : DistF) (m id : Int) :
    selStep dist (some m) id = if dist id < dist m then some id else some m := rfl

theorem selectMin_go_find (dist : DistF) :
    ∀ (l : List Int) (c : Int),
      l.foldl (selStep dist) (some c) =
        (c :: l).find? (fun x => decide (∀ y ∈ c :: l, dist x ≤ dist y)) := by
  intro l
  induction l with
  | nil =>
      intro c
      rw [List.foldl_nil, List.find?_cons_of_pos]
      simp
  | cons y ys ih =>
      intro c
      rw [List.foldl_cons, selStep_some]
      by_cases hlt : dist y < dist c
      · rw [if_pos hlt, ih y]
        have e2 : (c :: y :: ys).find?
            (fun x => decide (∀ z ∈ c :: y :: ys, dist x ≤ dist z)) =
            (y :: ys).find?
            (fun x => decide (∀ z ∈ c :: y :: ys, dist x ≤ dist z)) := by
          refine List.find?_cons_of_neg _ ?_
          simp only [decide_eq_true_iff]
          intro hcmin
          exact absurd (hcmin y (by simp)) (not_le.2 hlt)
        rw [e2]
        refine find_congr_bool (y :: ys) ?_
        intro x hx
        simp only [decide_eq_decide]
        constructor
        · intro h1 z hz
          rcases List.mem_cons.mp hz with rfl | hz2
          · exact le_trans (h1 y (by simp)) (le_of_lt hlt)
          · exact h1 z hz2
        · intro h1 z hz
          exact h1 z (List.mem_cons_of_mem _ hz)
      · rw [if_neg hlt, ih c]
        have hcy : dist c ≤ dist y := not_lt.mp hlt
        by_cases hc : ∀ z ∈ c :: y :: ys, dist c ≤ dist z
        · rw [List.find?_cons_of_pos, List.find?_cons_of_pos]
          · simp only [decide_eq_true_iff]
            exact hc
          · simp only [decide_eq_true_iff]
            intro z hz
            rcases List.mem_cons.mp hz with rfl | hz2
            · exact le_refl _
            · exact hc z (by simp [hz2])
        · have hz : ∃ z ∈ ys, dist z < dist c := by
            push_neg at hc
            obtain ⟨z, hzmem, hzlt⟩ := hc
            have hzlt' : dist z < dist c := hzlt
            rcases List.mem_cons.mp hzmem with rfl | hz2
            · exact absurd hzlt' (lt_irrefl _)
            · rcases List.mem_cons.mp hz2 with rfl | hz3
              · exact absurd (hzlt'.trans_le hcy) (lt_irrefl _)
              · exact ⟨z, hz3, hzlt'⟩
          obtain ⟨z, hzmem, hzlt⟩ := hz
          have e1 : (c :: ys).find?
              (fun x => decide (∀ w ∈ c :: ys, dist x ≤ dist w)) =
              ys.find? (fun x => decide (∀ w ∈ c :: ys, dist x ≤ dist w)) := by
            refine List.find?_cons_of_neg _ ?_
            simp only [decide_eq_true_iff]
            intro hcmin
            exact absurd (hcmin z (by simp [hzmem])) (not_le.2 hzlt)
          have e2 : (c :: y :: ys).find?
              (fun x => decide (∀ w ∈ c :: y :: ys, dist x ≤ dist w)) =
              (y :: ys).find?
              (fun x => decide (∀ w ∈ c :: y :: ys, dist x ≤ dist w)) := by
            refine List.find?_cons_of_neg _ ?_
            simp only [decide_eq_true_iff]
            intro hcmin
            exact absurd (hcmin z (by simp [hzmem])) (not_le.2 hzlt)
          have e3 : (y :: ys).find?
              (fun x => decide (∀ w ∈ c :: y :: ys, dist x ≤ dist w)) =
              ys.find? (fun x => decide (∀ w ∈ c :: y :: ys, dist x ≤ dist w)) := by
            refine List.find?_cons_of_neg _ ?_
            simp only [decide_eq_true_iff]
            intro hymin
            exact absurd (hymin z (by simp [hzmem]))
              (not_le.2 (hzlt.trans_le hcy))
          rw [e1, e2, e3]
          refine find_congr_bool ys ?_
          intro x hx
          simp only [decide_eq_decide]
          constructor
          · intro h1 w hw
            rcases List.mem_cons.mp hw with rfl | hw2
            · exact h1 w (by simp)
            · rcases List.mem_cons.mp hw2 with rfl | hw3
              · exact le_trans (h1 c (by simp)) hcy
              · exact h1 w (by simp [hw3])
          · intro h1 w hw
            rcases List.mem_cons.mp hw with rfl | hw2
            · exact h1 w (by simp)
            · exact h1 w (by simp [hw2])

theorem selectMin_eq_find (dist : DistF) (l : List Int) :
    selectMin dist l = l.find? (fun x => decide (∀ y ∈ l, dist x ≤ dist y)) := by
  cases l with
  | nil => rfl
  | cons a t => rw [selectMin_cons, selectMin_go_find]

/-! ### Lemmas: monotonicity in a single flow coefficient -/

theorem mem_of_lookup {l : List (String × ℚ)} {k : String} {b : ℚ}
    (h : l.lookup k = some b) : (k, b) ∈ l := by
  obtain ⟨l1, l2, hsplit, _⟩ := List.lookup_eq_some_iff.1 h
  rw [hsplit]
  simp

theorem flowRate_nonneg {fl : List (String × ℚ)} {t : String}
    (h : ∀ p ∈ fl, 0 ≤ p.2) : 0 ≤ flowRate fl t := by
  unfold flowRate
  rcases hl : fl.lookup t with _ | c
  · show (0 : ℚ) ≤ 1/5
    norm_num
  · show (0 : ℚ) ≤ if c = 0 then 1/5 else c
    by_cases hc : c = 0
    · rw [if_pos hc]
      norm_num
    · rw [if_neg hc]
      exact h (t, c) (mem_of_lookup hl)

theorem flowRate_pos_eq {fl : List (String × ℚ)} {t : String} {c : ℚ}
    (hl : fl.lookup t = some c) (hc : c ≠ 0) : flowRate fl t = c := by
  unfold flowRate
  rw [hl]
  show (if c = 0 then 1/5 else c) = c
  rw [if_neg hc]

theorem edgePath_transfer {esA esB : List WEdge}
    (hAB : ∀ e ∈ esB, ∃ e2 ∈ esA, e2.from_ = e.from_ ∧ e2.to_ = e.to_ ∧
      e2.weight ≤ e.weight) :
    ∀ {a b : Int} {p : List WEdge}, IsEdgePath esB a b p →
      ∃ p2, IsEdgePath esA a b p2 ∧ epWeight p2 ≤ epWeight p := by
  intro a b p h
  induction h with
  | nil c => exact ⟨[], IsEdgePath.nil c, le_refl _⟩
  | cons e he _ ih =>
      obtain ⟨p2, hp2, hw2⟩ := ih
      obtain ⟨e2, he2, hf, ht, hwle⟩ := hAB e he
      refine ⟨e2 :: p2, ?_, ?_⟩
      · have h2 : IsEdgePath esA e2.to_ _ p2 := ht ▸ hp2
        have h3 := IsEdgePath.cons e2 he2 h2
        rwa [hf] at h3
      · rw [epWeight_cons, epWeight_cons]
        exact add_le_add hwle hw2

theorem reachable_transfer {esA esB : List WEdge}
    (hAB : ∀ e ∈ esB, ∃ e2 ∈ esA, e2.from_ = e.from_ ∧ e2.to_ = e.to_)
    {a b : Int} : Reachable esB a b → Reachable esA a b := by
  rintro ⟨p, hp⟩
  suffices h : ∀ {a1 b1 : Int} {p1 : List WEdge}, IsEdgePath esB a1 b1 p1 →
      ∃ p2, IsEdgePath esA a1 b1 p2 by
    obtain ⟨p2, hp2⟩ := h hp
    exact ⟨p2, hp2⟩
  intro a1 b1 p1 hp1
  induction hp1 with
  | nil c => exact ⟨[], IsEdgePath.nil c⟩
  | cons e he _ ih =>
      obtain ⟨p2, hp2⟩ := ih
      obtain ⟨e2, he2, hf, ht⟩ := hAB e he
      refine ⟨e2 :: p2, ?_⟩
      have h2 : IsEdgePath esA e2.to_ _ p2 := ht ▸ hp2
      have h3 := IsEdgePath.cons e2 he2 h2
      rwa [hf] at h3

theorem dijkstra_flow_monotone
    (G G' : Graph) (t : String) (i : Nat) (start endId : Int) (c c' : ℚ)
    (hdist : ∀ e ∈ G.edges, 0 ≤ e.distance)
    (hflow : ∀ e ∈ G.edges, ∀ fl, e.flow = some fl → ∀ p ∈ fl, 0 ≤ p.2)
    (hflowP : ∀ e ∈ G.edges, e.flow ≠ none)
    (hclosed : ∀ e ∈ G.edges,
      e.from_ ∈ G.nodes.map Node.id ∧ e.to_ ∈ G.nodes.map Node.id)
    (hsA : start ∈ G.nodes.map Node.id) (heA : endId ∈ G.nodes.map Node.id)
    (hnodes : G'.nodes = G.nodes)
    (hlen : G'.edges.length = G.edges.length)
    (hi : i < G.edges.length) (hi' : i < G'.edges.length)
    (hothers : ∀ (j : Nat) (hj : j < G.edges.length) (hj' : j < G'.edges.length),
      j ≠ i → G'.edges.get ⟨j, hj'⟩ = G.edges.get ⟨j, hj⟩)
    (hfrom : (G'.edges.get ⟨i, hi'⟩).from_ = (G.edges.get ⟨i, hi⟩).from_)
    (hto : (G'.edges.get ⟨i, hi'⟩).to_ = (G.edges.get ⟨i, hi⟩).to_)
    (hdisti : (G'.edges.get ⟨i, hi'⟩).distance = (G.edges.get ⟨i, hi⟩).distance)
    (hfi : ∃ fl, (G.edges.get ⟨i, hi⟩).flow = some fl ∧ fl.lookup t = some c)
    (hfi' : ∃ fl', (G'.edges.get ⟨i, hi'⟩).flow = some fl' ∧
      fl'.lookup t = some c')
    (hc : 0 < c) (hcc : c ≤ c') :
    ∃ wg wg' r r',
      initEdgeWeights G t = some wg ∧
      initEdgeWeights G' t = some wg' ∧
      dijkstra start endId wg = some r ∧
      dijkstra start endId wg' = some r' ∧
      r.totalWeight ≤ r'.totalWeight := by
  obtain ⟨fl, hfl, hlook⟩ := hfi
  obtain ⟨fl', hfl', hlook'⟩ := hfi'
  have hc' : 0 < c' := lt_of_lt_of_le hc hcc
  have hflowP' : ∀ e ∈ G'.edges, e.flow ≠ none := by
    intro e he
    obtain ⟨n, hn⟩ := List.mem_iff_get.1 he
    by_cases hni : n.1 = i
    · have : e = G'.edges.get ⟨i, hi'⟩ := by
        rw [← hn]
        congr 1
        exact Fin.ext hni
      rw [this, hfl']
      simp
    · have heq := hothers n.1 (by omega) n.2 hni
      have hmem : e ∈ G.edges := by
        rw [← hn, heq]
        exact List.get_mem _ _ _
      exact hflowP e hmem
  obtain ⟨wg, hwg⟩ := initEdgeWeights_total G t hflowP
  obtain ⟨wg', hwg'⟩ := initEdgeWeights_total G' t hflowP'
  obtain ⟨hnodesW, hwes⟩ := initEdgeWeights_some hwg
  obtain ⟨hnodesW', hwes'⟩ := initEdgeWeights_some hwg'
  obtain ⟨hlenW, hidxW⟩ := weightEdges_some hwes
  obtain ⟨hlenW', hidxW'⟩ := weightEdges_some hwes'
  have hpt : ∀ (j : Nat) (hj : j < wg'.edges.length), ∃ hjA : j < wg.edges.length,
      (wg.edges.get ⟨j, hjA⟩).from_ = (wg'.edges.get ⟨j, hj⟩).from_ ∧
      (wg.edges.get ⟨j, hjA⟩).to_ = (wg'.edges.get ⟨j, hj⟩).to_ ∧
      (wg.edges.get ⟨j, hjA⟩).weight ≤ (wg'.edges.get ⟨j, hj⟩).weight := by
    intro j hj
    have hjG' : j < G'.edges.length := by omega
    have hjG : j < G.edges.length := by omega
    have hjA : j < wg.edges.length := by omega
    obtain ⟨flA, hflA, hgetA⟩ := hidxW j hjG hjA
    obtain ⟨flB, hflB, hgetB⟩ := hidxW' j hjG' hj
    refine ⟨hjA, ?_⟩
    rw [hgetA, hgetB]
    by_cases hji : j = i
    · subst hji
      have hflAe : flA = fl := by
        rw [hfl] at hflA
        exact (Option.some.inj hflA).symm
      have hflBe : flB = fl' := by
        rw [hfl'] at hflB
        exact (Option.some.inj hflB).symm
      subst hflAe
      subst hflBe
      refine ⟨by rw [hfrom], by rw [hto], ?_⟩
      simp only []
      rw [hdisti, flowRate_pos_eq hlook (ne_of_gt hc),
        flowRate_pos_eq hlook' (ne_of_gt hc')]
      refine mul_le_mul_of_nonneg_left (by linarith)
        (hdist _ (List.get_mem _ _ _))
    · have heq := hothers j hjG hjG' hji
      rw [heq] at hflB
      have hflBe : flB = flA := by
        rw [hflA] at hflB
        exact (Option.some.inj hflB).symm
      subst hflBe
      rw [heq]
      exact ⟨rfl, rfl, le_refl _⟩
  have hBA : ∀ e2 ∈ wg'.edges, ∃ e ∈ wg.edges, e.from_ = e2.from_ ∧
      e.to_ = e2.to_ ∧ e.weight ≤ e2.weight := by
    intro e2 he2
    obtain ⟨⟨nv, hnv⟩, hn⟩ := List.mem_iff_get.1 he2
    obtain ⟨hjA, h1, h2, h3⟩ := hpt nv hnv
    rw [hn] at h1 h2 h3
    exact ⟨wg.edges.get ⟨nv, hjA⟩, List.get_mem _ _ _, h1, h2, h3⟩
  have hAB : ∀ e ∈ wg.edges, ∃ e2 ∈ wg'.edges, e2.from_ = e.from_ ∧
      e2.to_ = e.to_ := by
    intro e he
    obtain ⟨⟨nv, hnv⟩, hn⟩ := List.mem_iff_get.1 he
    have hjB : nv < wg'.edges.length := by omega
    obtain ⟨hjA, h1, h2, _⟩ := hpt nv hjB
    have hsame : wg.edges.get ⟨nv, hjA⟩ = e := by rw [← hn]
    rw [hsame] at h1 h2
    exact ⟨wg'.edges.get ⟨nv, hjB⟩, List.get_mem _ _ _, h1.symm, h2.symm⟩
  have hwA : ∀ e ∈ wg.edges, 0 ≤ e.weight := by
    intro e he
    obtain ⟨⟨nv, hnv⟩, hn⟩ := List.mem_iff_get.1 he
    have hjG : nv < G.edges.length := by omega
    obtain ⟨flA, hflA, hgetA⟩ := hidxW nv hjG hnv
    rw [← hn, hgetA]
    show 0 ≤ (G.edges.get ⟨nv, hjG⟩).distance * (1 + flowRate flA t)
    refine mul_nonneg (hdist _ (List.get_mem _ _ _)) ?_
    have h0 := flowRate_nonneg (t := t)
      (hflow _ (List.get_mem _ _ _) flA hflA)
    linarith
  have hwB : ∀ e2 ∈ wg'.edges, 0 ≤ e2.weight := by
    intro e2 he2
    obtain ⟨e, he, _, _, hle⟩ := hBA e2 he2
    exact le_trans (hwA e he) hle
  have hclosedA : ∀ e ∈ wg.edges,
      e.from_ ∈ wg.nodes.map Node.id ∧ e.to_ ∈ wg.nodes.map Node.id := by
    intro e he
    obtain ⟨⟨nv, hnv⟩, hn⟩ := List.mem_iff_get.1 he
    have hjG : nv < G.edges.length := by omega
    obtain ⟨flA, hflA, hgetA⟩ := hidxW nv hjG hnv
    rw [← hn, hgetA, hnodesW]
    exact hclosed _ (List.get_mem _ _ _)
  have hclosedB : ∀ e2 ∈ wg'.edges,
      e2.from_ ∈ wg'.nodes.map Node.id ∧ e2.to_ ∈ wg'.nodes.map Node.id := by
    intro e2 he2
    obtain ⟨e, he, h1, h2, _⟩ := hBA e2 he2
    have h3 := hclosedA e he
    rw [h1, h2] at h3
    rwa [hnodesW', hnodes, ← hnodesW]
  have hsW : start ∈ wg.nodes.map Node.id := by
    rw [hnodesW]
    exact hsA
  have heW : endId ∈ wg.nodes.map Node.id := by
    rw [hnodesW]
    exact heA
  have hsW' : start ∈ wg'.nodes.map Node.id := by
    rw [hnodesW', hnodes]
    exact hsA
  have heW' : endId ∈ wg'.nodes.map Node.id := by
    rw [hnodesW', hnodes]
    exact heA
  by_cases hreach : Reachable wg.edges start endId
  · have hreach' : Reachable wg'.edges start endId :=
      reachable_transfer hAB hreach
    obtain ⟨r, ep, hr, hep, _, hwt, hmin⟩ :=
      dijkstra_reachable wg start endId hwA hclosedA hsW heW hreach
    obtain ⟨r', ep', hr', hep', _, hwt', _⟩ :=
      dijkstra_reachable wg' start endId hwB hclosedB hsW' heW' hreach'
    refine ⟨wg, wg', r, r', hwg, hwg', hr, hr', ?_⟩
    rw [hwt, hwt']
    obtain ⟨ep2, hep2, hle2⟩ := edgePath_transfer hBA hep'
    have h1 := hmin ep2 hep2
    exact_mod_cast le_trans h1 hle2
  · have hreach' : ¬ Reachable wg'.edges start endId := by
      intro h
      exact hreach (reachable_transfer
        (fun e2 he2 => by
          obtain ⟨e, he, h1, h2, _⟩ := hBA e2 he2
          exact ⟨e, he, h1, h2⟩) h)
    refine ⟨wg, wg', noPathResult, noPathResult,
      hwg, hwg', dijkstra_unreachable wg start endId heW hreach,
      dijkstra_unreachable wg' start endId heW' hreach', le_refl _⟩

theorem reachable_head {edges : List WEdge} {a b : Int} (h : Reachable edges a b)
    (hne : a ≠ b) : ∃ e ∈ edges, e.from_ = a := by
  obtain ⟨p, hp⟩ := h
  cases hp with
  | nil => exact absurd rfl hne
  | cons e he rest => exact ⟨e, he, rfl⟩

theorem weightEdge_flowRate (t : String) (e : Edge) (fl : List (String × ℚ))
    (hfl : e.flow = some fl) :
    weightEdge t e =
      some { from_ := e.from_, to_ := e.to_, distance := e.distance,
             weight := e.distance * (1 + flowRate fl t) } := by
  unfold weightEdge
  rw [hfl]

theorem weightEdges_cons (t : String) (e : Edge) (es : List Edge) :
    weightEdges t (e :: es) =
      match weightEdge t e, weightEdges t es with
      | some w, some ws => some (w :: ws)
      | _, _ => none := rfl

/-- Evaluating `initEdgeWeights` on `exG8b` (coefficient 1/10). -/
theorem exWG8b_init : initEdgeWeights exG8b "morning" = some exWG8b := by
  have hfr : flowRate [("morning", (1/10 : ℚ))] "morning" = 1/10 :=
    flowRate_pos_eq rfl (by norm_num)
  have hwe : weightEdge "morning" ⟨1, 2, 1, some [("morning", (1/10 : ℚ))]⟩ =
      some ⟨1, 2, 1, 1 * (1 + 1/10)⟩ := by
    rw [weightEdge_flowRate "morning" _ [("morning", (1/10 : ℚ))] rfl, hfr]
  have hwes : weightEdges "morning" exG8b.edges =
      some [(⟨1, 2, 1, 1 * (1 + 1/10)⟩ : WEdge)] := by
    rw [show exG8b.edges =
        [(⟨1, 2, 1, some [("morning", (1/10 : ℚ))]⟩ : Edge)] from rfl,
      weightEdges_cons, hwe]
    rfl
  rw [initEdgeWeights_eq, deepCopyGraph_id, hwes]
  rfl

/-- A path between distinct endpoints starts with an edge leaving the
start, and (weights being non-negative) weighs at least that edge. -/
theorem epWeight_ge_head {edges : List WEdge} {a b : Int} {ep : List WEdge}
    (h : IsEdgePath edges a b ep) (hne : a ≠ b)
    (hw : ∀ e ∈ edges, 0 ≤ e.weight) :
    ∃ e ∈ edges, e.from_ = a ∧ e.weight ≤ epWeight ep := by
  cases h with
  | nil => exact absurd rfl hne
  | cons e he rest =>
      refine ⟨e, he, rfl, ?_⟩
      rw [epWeight_cons]
      have h0 := epWeight_nonneg hw rest
      linarith

/-! ### The claims -/

/-- C1: for every weighted graph with non-negative edge weights and unique
node ids, whose edges join existing nodes (the data-model invariant of the
spec), if `start` and `end` are ids of nodes of the graph and some edge
path leads from `start` to `end`, then `dijkstra start end graph` returns a
result whose `totalWeight` equals the minimum, over all edge paths from
`start` to `end`, of the sum of their edge weights, and whose `path` is the
node sequence of such a minimum-weight edge path. -/
theorem claim_C1_shortest_path (g : WGraph) (start endId : Int)
    (hnd : (g.nodes.map Node.id).Nodup)
    (hw : ∀ e ∈ g.edges, 0 ≤ e.weight)
    (hclosed : ∀ e ∈ g.edges,
      e.from_ ∈ g.nodes.map Node.id ∧ e.to_ ∈ g.nodes.map Node.id)
    (hs : start ∈ g.nodes.map Node.id) (he : endId ∈ g.nodes.map Node.id)
    (hr : Reachable g.edges start endId) :
    ∃ r ep, dijkstra start endId g = some r ∧
      IsEdgePath g.edges start endId ep ∧
      r.path = epNodes start ep ∧
      r.totalWeight = ((epWeight ep : ℚ) : WithTop ℚ) ∧
      ∀ ep', IsEdgePath g.edges start endId ep' → epWeight ep ≤ epWeight ep' :=
  dijkstra_reachable g start endId hw hclosed hs he hr

/-- Witness for C1 on the two-node graph `exG1`. -/
theorem claim_C1_witness :
    ((exG1.nodes.map Node.id).Nodup ∧
     (∀ e ∈ exG1.edges, 0 ≤ e.weight) ∧
     (∀ e ∈ exG1.edges,
       e.from_ ∈ exG1.nodes.map Node.id ∧ e.to_ ∈ exG1.nodes.map Node.id) ∧
     (1 : Int) ∈ exG1.nodes.map Node.id ∧
     (2 : Int) ∈ exG1.nodes.map Node.id ∧
     Reachable exG1.edges 1 2) ∧
    (∃ r ep, dijkstra 1 2 exG1 = some r ∧
      IsEdgePath exG1.edges 1 2 ep ∧
      r.path = epNodes 1 ep ∧
      r.totalWeight = ((epWeight ep : ℚ) : WithTop ℚ) ∧
      ∀ ep', IsEdgePath exG1.edges 1 2 ep' → epWeight ep ≤ epWeight ep') :=
  ⟨⟨by decide,
    by
      intro e he
      simp only [exG1, List.mem_singleton] at he
      subst he
      norm_num,
    by decide, by decide, by decide,
    ⟨[⟨1, 2, 3, 3⟩], IsEdgePath.cons ⟨1, 2, 3, 3⟩ (by decide)
      (IsEdgePath.nil 2)⟩⟩,
   claim_C1_shortest_path exG1 1 2 (by decide)
     (by
       intro e he
       simp only [exG1, List.mem_singleton] at he
       subst he
       norm_num)
     (by decide) (by decide) (by decide)
     ⟨[⟨1, 2, 3, 3⟩], IsEdgePath.cons ⟨1, 2, 3, 3⟩ (by decide)
       (IsEdgePath.nil 2)⟩⟩

/-- C2 fails on the code: for the one-edge graph `exG2` whose stored
morning coefficient is 0, the claim predicts weight `1 * (1 + 0) = 1`, but
`||` treats the stored 0 as missing and the code produces `1.2`. -/
theorem claim_C2_counterexample :
    initEdgeWeights exG2 "morning" = some exWG2 ∧
    (exWG2.edges.map WEdge.weight = [1 * (1 + 1/5)]) ∧
    ((1 * (1 + 1/5) : ℚ) ≠ 1 * (1 + 0)) :=
  ⟨rfl, rfl, by norm_num⟩

/-- C2 amended: after `initEdgeWeights`, every edge's weight equals
`distance * (1 + c)` where `c` is the stored coefficient for the period
when that coefficient is present and nonzero, and `c = 0.2` when the period
is absent from the flow mapping or its stored coefficient equals 0. -/
theorem claim_C2_amended (g : Graph) (t : String) (wg : WGraph)
    (h : initEdgeWeights g t = some wg) :
    wg.edges.length = g.edges.length ∧
    ∀ (i : Nat) (hi : i < g.edges.length) (hiw : i < wg.edges.length),
      ∃ fl, (g.edges.get ⟨i, hi⟩).flow = some fl ∧
        (wg.edges.get ⟨i, hiw⟩).weight =
          (g.edges.get ⟨i, hi⟩).distance *
            (1 + (match fl.lookup t with
                  | some c => if c = 0 then 1/5 else c
                  | none => 1/5)) := by
  obtain ⟨_, hwes⟩ := initEdgeWeights_some h
  obtain ⟨hlen, hidx⟩ := weightEdges_some hwes
  refine ⟨hlen, ?_⟩
  intro i hi hiw
  obtain ⟨fl, h1, h2⟩ := hidx i hi hiw
  refine ⟨fl, h1, ?_⟩
  rw [h2]
  rfl

/-- Witness for the amended C2 on `exG2`. -/
theorem claim_C2_witness :
    initEdgeWeights exG2 "morning" = some exWG2 ∧
    (exWG2.edges.length = exG2.edges.length ∧
     ∀ (i : Nat) (hi : i < exG2.edges.length) (hiw : i < exWG2.edges.length),
       ∃ fl, (exG2.edges.get ⟨i, hi⟩).flow = some fl ∧
         (exWG2.edges.get ⟨i, hiw⟩).weight =
           (exG2.edges.get ⟨i, hi⟩).distance *
             (1 + (match fl.lookup "morning" with
                   | some c => if c = 0 then 1/5 else c
                   | none => 1/5))) :=
  ⟨rfl, claim_C2_amended exG2 "morning" exWG2 rfl⟩

/-- C3 is refuted on the code (the claim is right about the intent, the
code has a bug): when the `end` id is not a node id, the reconstruction
loop `while (current !== null)` never exits, because `prev[end]` is
`undefined` and `undefined !== null`; `dijkstraFuel` therefore yields
`none` for every amount of fuel, i.e. the call never returns. -/
theorem claim_C3_missing_end_diverges (g : WGraph) (start endId : Int)
    (he : endId ∉ g.nodes.map Node.id) :
    ∀ fuel, dijkstraFuel fuel start endId g = none :=
  dijkstraFuel_missing_end g start endId he

/-- Witness for C3 at the failing input: one node `1`, no edges, query
`dijkstra(1, 2, g)`. -/
theorem claim_C3_witness :
    ((2 : Int) ∉ exG3.nodes.map Node.id) ∧
    ∀ fuel, dijkstraFuel fuel 1 2 exG3 = none :=
  ⟨by decide, claim_C3_missing_end_diverges exG3 1 2 (by decide)⟩

/-- C4 fails as stated: for the graph `exG3` with no edge path from 1 to
the nonexistent node 2, the code does not return the canonical no-path
result — it never returns at all (the reconstruction loop diverges, so the
model yields `none` at every fuel). -/
theorem claim_C4_counterexample :
    (¬ Reachable exG3.edges 1 2) ∧
    (∀ fuel, dijkstraFuel fuel 1 2 exG3 = none) ∧
    dijkstra 1 2 exG3 = none := by
  refine ⟨?_, dijkstraFuel_missing_end exG3 1 2 (by decide), by decide⟩
  intro h
  obtain ⟨e, he, _⟩ := reachable_head h (by decide)
  exact absurd he (List.not_mem_nil e)

/-- C4 amended: for every weighted graph whose nodes include `end`, if no
edge path leads from `start` to `end` then `dijkstra` returns the
canonical no-path result: `path = []`, `pathNodes = []`,
`totalWeight = Infinity`, `totalDistance = 0`. -/
theorem claim_C4_amended (g : WGraph) (start endId : Int)
    (he : endId ∈ g.nodes.map Node.id)
    (hur : ¬ Reachable g.edges start endId) :
    dijkstra start endId g = some noPathResult ∧
    noPathResult.path = [] ∧ noPathResult.pathNodes = [] ∧
    noPathResult.totalWeight = ⊤ ∧ noPathResult.totalDistance = 0 :=
  ⟨dijkstra_unreachable g start endId he hur, rfl, rfl, rfl, rfl⟩

/-- Witness for the amended C4 on `exG4` (node 2 exists but is only the
source of an edge, never a target). -/
theorem claim_C4_witness :
    (((2 : Int) ∈ exG4.nodes.map Node.id) ∧ ¬ Reachable exG4.edges 1 2) ∧
    (dijkstra 1 2 exG4 = some noPathResult ∧
     noPathResult.path = [] ∧ noPathResult.pathNodes = [] ∧
     noPathResult.totalWeight = ⊤ ∧ noPathResult.totalDistance = 0) := by
  have hnr : ¬ Reachable exG4.edges 1 2 := by
    intro h
    obtain ⟨e, he, hef⟩ := reachable_head h (by decide)
    have he2 : e = ⟨2, 1, 1, 1⟩ := by
      simpa [exG4] using he
    rw [he2] at hef
    exact absurd hef (by decide)
  exact ⟨⟨by decide, hnr⟩, claim_C4_amended exG4 1 2 (by decide) hnr⟩

/-- C5 fails as stated over every id: when `start = end` is not a node id,
the reconstruction loop diverges (`prev[start]` is `undefined`), so the
code never returns, rather than returning `⟨[start], 0, 0⟩`. -/
theorem claim_C5_counterexample :
    ((5 : Int) ∉ exG3.nodes.map Node.id) ∧
    (∀ fuel, dijkstraFuel fuel 5 5 exG3 = none) ∧
    dijkstra 5 5 exG3 = none :=
  ⟨by decide, dijkstraFuel_missing_end exG3 5 5 (by decide), by decide⟩

/-- C5 amended: for every weighted graph and every id `start` that is a
node id of the graph, `dijkstra start start graph` returns
`path = [start]`, `totalWeight = 0`, `totalDistance = 0`. -/
theorem claim_C5_amended (g : WGraph) (start : Int)
    (hs : start ∈ g.nodes.map Node.id) :
    dijkstra start start g = some
      { path := [start], totalWeight := 0, totalDistance := 0,
        pathNodes := [nodeMapGet g.nodes start] } :=
  dijkstra_self g start hs

/-- Witness for the amended C5 on `exG5`. -/
theorem claim_C5_witness :
    ((1 : Int) ∈ exG5.nodes.map Node.id) ∧
    dijkstra 1 1 exG5 = some
      { path := [1], totalWeight := 0, totalDistance := 0,
        pathNodes := [nodeMapGet exG5.nodes 1] } :=
  ⟨by decide, claim_C5_amended exG5 1 (by decide)⟩

/-- C6 fails as stated: an edge whose `flow` mapping is absent is not
silently defaulted — `edge.flow[timePeriod]` throws a TypeError (modelled
as `none`), so `initEdgeWeights` does not return a weighted graph. -/
theorem claim_C6_counterexample :
    (∃ e ∈ exG6.edges, e.flow = none) ∧
    initEdgeWeights exG6 "morning" = none :=
  ⟨by decide, by decide⟩

/-- C6 amended: `initEdgeWeights` never fails for any graph in which every
edge carries a `flow` mapping; a missing coefficient inside a present
mapping is silently defaulted, and the function returns a weighted
graph. -/
theorem claim_C6_amended (g : Graph) (t : String)
    (hfl : ∀ e ∈ g.edges, e.flow ≠ none) :
    ∃ wg, initEdgeWeights g t = some wg :=
  initEdgeWeights_total g t hfl

/-- Witness for the amended C6 on `exG6b` (flow mapping present, queried
period absent). -/
theorem claim_C6_witness :
    (∀ e ∈ exG6b.edges, e.flow ≠ none) ∧
    ∃ wg, initEdgeWeights exG6b "morning" = some wg :=
  ⟨by decide, claim_C6_amended exG6b "morning" (by decide)⟩

/-- C7: `initEdgeWeights` does not mutate its input graph.  In the
embedding the call consumes only the `JSON.parse(JSON.stringify(...))`
deep copy, which is structurally equal to the input, so the input is
structurally unchanged by the call and the call computed on the copy gives
the same result as the call on the original. -/
theorem claim_C7_no_mutation (g : Graph) (t : String) :
    deepCopyGraph g = g ∧
    initEdgeWeights g t = initEdgeWeights (deepCopyGraph g) t :=
  ⟨deepCopyGraph_id g, by rw [deepCopyGraph_id]⟩

/-- C8 fails as stated: `exG8b` differs from `exG2` only in that the single
edge's morning flow coefficient is raised from 0 to 1/10 (same nodes, same
endpoints, same distance), yet the `totalWeight` returned by `dijkstra`
after `initEdgeWeights` strictly DECREASES, from `1 * (1 + 1/5)` to
`1 * (1 + 1/10)`: the `||` default turns the stored 0 into 0.2. -/
theorem claim_C8_counterexample :
    (exG2.nodes = exG8b.nodes ∧
     exG2.edges.map Edge.from_ = exG8b.edges.map Edge.from_ ∧
     exG2.edges.map Edge.to_ = exG8b.edges.map Edge.to_ ∧
     exG2.edges.map Edge.distance = exG8b.edges.map Edge.distance ∧
     exG2.edges.map Edge.flow = [some [("morning", 0)]] ∧
     exG8b.edges.map Edge.flow = [some [("morning", 1/10)]] ∧
     ((0 : ℚ) < 1/10)) ∧
    ∃ wg wg' r r',
      initEdgeWeights exG2 "morning" = some wg ∧
      initEdgeWeights exG8b "morning" = some wg' ∧
      dijkstra 1 2 wg = some r ∧
      dijkstra 1 2 wg' = some r' ∧
      r'.totalWeight < r.totalWeight := by
  refine ⟨⟨rfl, rfl, rfl, rfl, rfl, rfl, by norm_num⟩, exWG2, exWG8b, ?_⟩
  have hwA : ∀ e ∈ exWG2.edges, 0 ≤ e.weight := by
    intro e he
    simp only [exWG2, List.mem_singleton] at he
    subst he
    norm_num
  have hwB : ∀ e ∈ exWG8b.edges, 0 ≤ e.weight := by
    intro e he
    simp only [exWG8b, List.mem_singleton] at he
    subst he
    norm_num
  have hclosedA : ∀ e ∈ exWG2.edges, e.from_ ∈ exWG2.nodes.map Node.id ∧
      e.to_ ∈ exWG2.nodes.map Node.id := by
    intro e he
    simp only [exWG2, List.mem_singleton] at he
    subst he
    refine ⟨by decide, by decide⟩
  have hclosedB : ∀ e ∈ exWG8b.edges, e.from_ ∈ exWG8b.nodes.map Node.id ∧
      e.to_ ∈ exWG8b.nodes.map Node.id := by
    intro e he
    simp only [exWG8b, List.mem_singleton] at he
    subst he
    refine ⟨by decide, by decide⟩
  have hrA : Reachable exWG2.edges 1 2 :=
    ⟨[⟨1, 2, 1, 1 * (1 + 1/5)⟩],
     IsEdgePath.cons _ (List.mem_cons_self _ _) (IsEdgePath.nil 2)⟩
  have hrB : Reachable exWG8b.edges 1 2 :=
    ⟨[⟨1, 2, 1, 1 * (1 + 1/10)⟩],
     IsEdgePath.cons _ (List.mem_cons_self _ _) (IsEdgePath.nil 2)⟩
  obtain ⟨r, ep, hr, hep, _, hwt, hmin⟩ :=
    dijkstra_reachable exWG2 1 2 hwA hclosedA (by decide) (by decide) hrA
  obtain ⟨r', ep', hr', hep', _, hwt', hmin'⟩ :=
    dijkstra_reachable exWG8b 1 2 hwB hclosedB (by decide) (by decide) hrB
  refine ⟨r, r', rfl, exWG8b_init, hr, hr', ?_⟩
  rw [hwt, hwt']
  have hub : epWeight ep' ≤ 1 * (1 + 1/10) := by
    have h1 := hmin' [⟨1, 2, 1, 1 * (1 + 1/10)⟩]
      (IsEdgePath.cons _ (List.mem_cons_self _ _) (IsEdgePath.nil 2))
    simpa [epWeight] using h1
  have hlb : (1 * (1 + 1/5) : ℚ) ≤ epWeight ep := by
    obtain ⟨e, he, _, hle⟩ := epWeight_ge_head hep (by decide) hwA
    have he2 : e ∈ [(⟨1, 2, 1, 1 * (1 + 1/5)⟩ : WEdge)] := he
    obtain rfl := List.mem_singleton.mp he2
    exact hle
  exact WithTop.coe_lt_coe.mpr
    (lt_of_le_of_lt hub (lt_of_lt_of_le (by norm_num) hlb))

/-- C8 amended: raising one edge's stored flow coefficient for the period,
with everything else fixed, never decreases the returned `totalWeight` —
provided the coefficient is present and positive before and after the
change (so the falsy-0 default of the code cannot fire), under the spec's
data-model invariants (non-negative distances and coefficients, every edge
carries a flow mapping, edge endpoints are node ids, and so are `start`
and `end`). -/
theorem claim_C8_amended
    (G G' : Graph) (t : String) (i : Nat) (start endId : Int) (c c' : ℚ)
    (hdist : ∀ e ∈ G.edges, 0 ≤ e.distance)
    (hflow : ∀ e ∈ G.edges, ∀ fl, e.flow = some fl → ∀ p ∈ fl, 0 ≤ p.2)
    (hflowP : ∀ e ∈ G.edges, e.flow ≠ none)
    (hclosed : ∀ e ∈ G.edges,
      e.from_ ∈ G.nodes.map Node.id ∧ e.to_ ∈ G.nodes.map Node.id)
    (hsA : start ∈ G.nodes.map Node.id) (heA : endId ∈ G.nodes.map Node.id)
    (hnodes : G'.nodes = G.nodes)
    (hlen : G'.edges.length = G.edges.length)
    (hi : i < G.edges.length) (hi' : i < G'.edges.length)
    (hothers : ∀ (j : Nat) (hj : j < G.edges.length) (hj' : j < G'.edges.length),
      j ≠ i → G'.edges.get ⟨j, hj'⟩ = G.edges.get ⟨j, hj⟩)
    (hfrom : (G'.edges.get ⟨i, hi'⟩).from_ = (G.edges.get ⟨i, hi⟩).from_)
    (hto : (G'.edges.get ⟨i, hi'⟩).to_ = (G.edges.get ⟨i, hi⟩).to_)
    (hdisti : (G'.edges.get ⟨i, hi'⟩).distance = (G.edges.get ⟨i, hi⟩).distance)
    (hfi : ∃ fl, (G.edges.get ⟨i, hi⟩).flow = some fl ∧ fl.lookup t = some c)
    (hfi' : ∃ fl', (G'.edges.get ⟨i, hi'⟩).flow = some fl' ∧
      fl'.lookup t = some c')
    (hc : 0 < c) (hcc : c ≤ c') :
    ∃ wg wg' r r',
      initEdgeWeights G t = some wg ∧
      initEdgeWeights G' t = some wg' ∧
      dijkstra start endId wg = some r ∧
      dijkstra start endId wg' = some r' ∧
      r.totalWeight ≤ r'.totalWeight :=
  dijkstra_flow_monotone G G' t i start endId c c' hdist hflow hflowP hclosed
    hsA heA hnodes hlen hi hi' hothers hfrom hto hdisti hfi hfi' hc hcc

/-- Witness for the amended C8: raising the coefficient of `exG8b`'s single
edge from 1/10 to 1/2 (graph `exG8c`). -/
theorem claim_C8_witness :
    ((∀ e ∈ exG8b.edges, 0 ≤ e.distance) ∧
     (∀ e ∈ exG8b.edges, ∀ fl, e.flow = some fl → ∀ p ∈ fl, 0 ≤ p.2) ∧
     (∀ e ∈ exG8b.edges, e.flow ≠ none) ∧
     (∀ e ∈ exG8b.edges,
       e.from_ ∈ exG8b.nodes.map Node.id ∧ e.to_ ∈ exG8b.nodes.map Node.id) ∧
     (1 : Int) ∈ exG8b.nodes.map Node.id ∧
     (2 : Int) ∈ exG8b.nodes.map Node.id ∧
     exG8c.nodes = exG8b.nodes ∧
     exG8c.edges.length = exG8b.edges.length ∧
     (∃ h0 : 0 < exG8b.edges.length, ∃ h0' : 0 < exG8c.edges.length,
       (∀ (j : Nat) (hj : j < exG8b.edges.length)
          (hj' : j < exG8c.edges.length),
         j ≠ 0 → exG8c.edges.get ⟨j, hj'⟩ = exG8b.edges.get ⟨j, hj⟩) ∧
       (exG8c.edges.get ⟨0, h0'⟩).from_ = (exG8b.edges.get ⟨0, h0⟩).from_ ∧
       (exG8c.edges.get ⟨0, h0'⟩).to_ = (exG8b.edges.get ⟨0, h0⟩).to_ ∧
       (exG8c.edges.get ⟨0, h0'⟩).distance =
         (exG8b.edges.get ⟨0, h0⟩).distance ∧
       (∃ fl, (exG8b.edges.get ⟨0, h0⟩).flow = some fl ∧
         fl.lookup "morning" = some (1/10)) ∧
       (∃ fl', (exG8c.edges.get ⟨0, h0'⟩).flow = some fl' ∧
         fl'.lookup "morning" = some (1/2))) ∧
     ((0 : ℚ) < 1/10) ∧ ((1/10 : ℚ) ≤ 1/2)) ∧
    ∃ wg wg' r r',
      initEdgeWeights exG8b "morning" = some wg ∧
      initEdgeWeights exG8c "morning" = some wg' ∧
      dijkstra 1 2 wg = some r ∧
      dijkstra 1 2 wg' = some r' ∧
      r.totalWeight ≤ r'.totalWeight := by
  have hdist : ∀ e ∈ exG8b.edges, 0 ≤ e.distance := by
    intro e he
    simp only [exG8b, List.mem_singleton] at he
    subst he
    norm_num
  have hflow : ∀ e ∈ exG8b.edges, ∀ fl, e.flow = some fl →
      ∀ p ∈ fl, 0 ≤ p.2 := by
    intro e he fl hfl p hp
    simp only [exG8b, List.mem_singleton] at he
    subst he
    injection hfl with h
    subst h
    simp only [List.mem_singleton] at hp
    subst hp
    norm_num
  have hothers : ∀ (j : Nat) (hj : j < exG8b.edges.length)
      (hj' : j < exG8c.edges.length),
      j ≠ 0 → exG8c.edges.get ⟨j, hj'⟩ = exG8b.edges.get ⟨j, hj⟩ := by
    intro j hj hj' hji
    have h1 : j < 1 := hj
    exact absurd (by omega) hji
  refine ⟨⟨hdist, hflow, by decide, by decide, by decide, by decide, rfl, rfl,
    ⟨by decide, by decide, hothers, rfl, rfl, rfl,
     ⟨[("morning", 1/10)], rfl, rfl⟩, ⟨[("morning", 1/2)], rfl, rfl⟩⟩,
    by norm_num, by norm_num⟩, ?_⟩
  exact claim_C8_amended exG8b exG8c "morning" 0 1 2 (1/10) (1/2)
    hdist hflow (by decide) (by decide) (by decide) (by decide) rfl rfl
    (by decide) (by decide) hothers rfl rfl rfl
    ⟨[("morning", 1/10)], rfl, rfl⟩ ⟨[("morning", 1/2)], rfl, rfl⟩
    (by norm_num) (by norm_num)

/-- C9: the minimum-selection step is deterministic and, among tied
labels, picks the earliest id in iteration order: `selectMin` returns
exactly the first element of the unvisited list whose label is a minimum
over the whole list; and the unvisited set iterates in `graph.nodes`
order (the deduplicated id list is a sublist of the node-id list). -/
theorem claim_C9_tie_break :
    (∀ (dist : DistF) (l : List Int),
      selectMin dist l =
        l.find? (fun x => decide (∀ y ∈ l, dist x ≤ dist y))) ∧
    (∀ g : WGraph,
      (insertOrderDedup (g.nodes.map Node.id)).Sublist (g.nodes.map Node.id)) :=
  ⟨selectMin_eq_find, fun g => insertOrderDedup_sublist _⟩

/-- C10: when the start id is absent from the nodes while the end id is
present and distinct from it, `dijkstra` terminates with the canonical
no-path result. -/
theorem claim_C10_missing_start (g : WGraph) (start endId : Int)
    (hs : start ∉ g.nodes.map Node.id) (he : endId ∈ g.nodes.map Node.id)
    (hne : start ≠ endId) :
    dijkstra start endId g = some noPathResult ∧
    noPathResult.path = [] ∧ noPathResult.pathNodes = [] ∧
    noPathResult.totalWeight = ⊤ ∧ noPathResult.totalDistance = 0 :=
  ⟨dijkstra_missing_start g start endId hs he hne, rfl, rfl, rfl, rfl⟩

/-- Witness for C10 on `exG3` with the absent start id 7. -/
theorem claim_C10_witness :
    (((7 : Int) ∉ exG3.nodes.map Node.id) ∧
     ((1 : Int) ∈ exG3.nodes.map Node.id) ∧ (7 : Int) ≠ 1) ∧
    (dijkstra 7 1 exG3 = some noPathResult ∧
     noPathResult.path = [] ∧ noPathResult.pathNodes = [] ∧
     noPathResult.totalWeight = ⊤ ∧ noPathResult.totalDistance = 0) :=
  ⟨⟨by decide, by decide, by decide⟩,
   claim_C10_missing_start exG3 7 1 (by decide) (by decide) (by decide)⟩

end XtuNav
